import Mathlib

/-!
Shallow embedding of the bitstring optimisation library (bitstring.py):
the BitString / Genetic / ProbOpt classes and the numpy / scipy numeric
primitives they call, together with proofs of the specified properties.

Machine floats are modelled as exact rationals; numpy integer arrays as
lists of integers.  Non-finite float results (NaN / inf produced by a
division by zero) are modelled as the value none of an Option type.
-/

/-! ## Numpy primitives -/

/-- Accumulator loop of numpy argmax over a list: bv is the best value so
far, bi its index, and i the index of the next list element.  The best
value is replaced only when a strictly greater one appears, so the first
occurrence of the maximum wins, exactly as in np.argmax. -/
def argmaxAux : List ℚ → ℚ → Nat → Nat → Nat
  | [], _, bi, _ => bi
  | x :: xs, bv, bi, i =>
      if bv < x then argmaxAux xs x i (i + 1) else argmaxAux xs bv bi (i + 1)

/-- Model of np.argmax on a 1-d float array: index of the first occurrence
of the maximum.  np.argmax raises ValueError on an empty array, modelled
by returning none. -/
def np_argmax : List ℚ → Option Nat
  | [] => none
  | x :: xs => some (argmaxAux xs x 0 1)

/-- Accumulator loop of numpy argmin over a list, mirroring argmaxAux:
the best value is replaced only by a strictly smaller one, so the first
occurrence of the minimum wins, exactly as in np.argmin. -/
def argminAux : List ℚ → ℚ → Nat → Nat → Nat
  | [], _, bi, _ => bi
  | x :: xs, bv, bi, i =>
      if x < bv then argminAux xs x i (i + 1) else argminAux xs bv bi (i + 1)

/-- Model of np.argmin on a 1-d float array: index of the first occurrence
of the minimum (0 on an empty array, a case never reached below). -/
def np_argmin_list : List ℚ → Nat
  | [] => 0
  | x :: xs => argminAux xs x 0 1

/-- Model of numpy scalar division: a finite quotient, or none standing
for the NaN / inf that numpy produces (with a warning) on division by
zero. -/
def npDiv (a b : ℚ) : Option ℚ := if b = 0 then none else some (a / b)

/-! ## The BitString class (bitstring.py lines 12-155) -/

/-- State of a Python BitString object: problem length, current
bitstring, the stored neighbor list, the fitness evaluator object
(modelled as its evaluate method) and the cached fitness value. -/
structure BitString where
  length : Nat
  state : List Int
  neighbors : List (List Int)
  fitness_fn : List Int → ℚ
  fitness : ℚ

/-- BitString.__init__ (lines 15-30): all-zero state of the given length,
empty neighbor list, fitness 0. -/
def BitString.init (length : Nat) (fitness_fn : List Int → ℚ) : BitString :=
  { length := length
    state := List.replicate length 0
    neighbors := []
    fitness_fn := fitness_fn
    fitness := 0 }

/-- BitString.calculate_fitness (lines 94-105): evaluate the fitness
function on a bitstring. -/
def BitString.calculate_fitness (b : BitString) (bitstring : List Int) : ℚ :=
  b.fitness_fn bitstring

/-- BitString.set_state (lines 82-92): store the supplied bitstring and
recompute the fitness.  The source performs no length check. -/
def BitString.set_state (b : BitString) (new_bitstring : List Int) : BitString :=
  { b with state := new_bitstring, fitness := b.calculate_fitness new_bitstring }

/-- Update of one entry of a copied numpy int array:
neighbor[i] = np.abs(neighbor[i] - 1) (line 120). -/
def flipEntry (x : Int) : Int := |x - 1|

/-- BitString.find_neighbors (lines 107-121): for every i < length, a copy
of the state with entry i replaced by np.abs(state[i] - 1); the state and
fitness fields are untouched. -/
def BitString.find_neighbors (b : BitString) : BitString :=
  { b with neighbors :=
      (List.range b.length).map (fun i => b.state.set i (flipEntry (b.state.getD i 0))) }

/-- BitString.best_neighbor (lines 123-140): evaluate every stored
neighbor and return the one at np.argmax of the fitness list (none models
the ValueError np.argmax raises on an empty list). -/
def BitString.best_neighbor (b : BitString) : Option (List Int) :=
  let fitness_list := b.neighbors.map b.fitness_fn
  (np_argmax fitness_list).map (fun i => b.neighbors.getD i [])

/-- OneMax.evaluate (lines 416-430): the number of one bits,
sum(bitstring) as a float. -/
def OneMax.evaluate (bitstring : List Int) : ℚ := ((bitstring.sum : Int) : ℚ)

/-! ## Generic lemmas about the argmax / argmin accumulators -/

theorem argmaxAux_spec (l : List ℚ) : ∀ (bv : ℚ) (bi i : Nat),
    (argmaxAux l bv bi i = bi ∧ ∀ k, k < l.length → l.getD k 0 ≤ bv) ∨
    (∃ t, t < l.length ∧ argmaxAux l bv bi i = i + t ∧ bv < l.getD t 0 ∧
      (∀ k, k < l.length → l.getD k 0 ≤ l.getD t 0) ∧
      (∀ k, k < t → l.getD k 0 < l.getD t 0)) := by
  induction l with
  | nil =>
      intro bv bi i
      left
      exact ⟨rfl, fun k hk => absurd hk (by simp)⟩
  | cons x xs ih =>
      intro bv bi i
      by_cases h : bv < x
      · have hstep : argmaxAux (x :: xs) bv bi i = argmaxAux xs x i (i + 1) := by
          simp only [argmaxAux, if_pos h]
        rcases ih x i (i + 1) with ⟨heq, hall⟩ | ⟨t, ht, heq, hgt, hall, hfirst⟩
        · right
          refine ⟨0, by simp, ?_, by simpa using h, ?_, fun k hk => absurd hk (by omega)⟩
          · rw [hstep, heq]; omega
          · intro k hk
            cases k with
            | zero => simp
            | succ k => simpa using hall k (by simpa using hk)
        · right
          refine ⟨t + 1, by simpa using ht, ?_, ?_, ?_, ?_⟩
          · rw [hstep, heq]; omega
          · simpa using lt_trans h hgt
          · intro k hk
            cases k with
            | zero => simpa using le_of_lt hgt
            | succ k => simpa using hall k (by simpa using hk)
          · intro k hk
            cases k with
            | zero => simpa using hgt
            | succ k => simpa using hfirst k (by omega)
      · have hstep : argmaxAux (x :: xs) bv bi i = argmaxAux xs bv bi (i + 1) := by
          simp only [argmaxAux, if_neg h]
        rcases ih bv bi (i + 1) with ⟨heq, hall⟩ | ⟨t, ht, heq, hgt, hall, hfirst⟩
        · left
          refine ⟨by rw [hstep, heq], ?_⟩
          intro k hk
          cases k with
          | zero => simpa using le_of_not_lt h
          | succ k => simpa using hall k (by simpa using hk)
        · right
          refine ⟨t + 1, by simpa using ht, ?_, by simpa using hgt, ?_, ?_⟩
          · rw [hstep, heq]; omega
          · intro k hk
            cases k with
            | zero => simpa using le_of_lt (lt_of_le_of_lt (le_of_not_lt h) hgt)
            | succ k => simpa using hall k (by simpa using hk)
          · intro k hk
            cases k with
            | zero => simpa using lt_of_le_of_lt (le_of_not_lt h) hgt
            | succ k => simpa using hfirst k (by omega)

theorem np_argmax_spec (l : List ℚ) (r : Nat) (h : np_argmax l = some r) :
    r < l.length ∧ (∀ k, k < l.length → l.getD k 0 ≤ l.getD r 0) ∧
    ∀ k, k < r → l.getD k 0 < l.getD r 0 := by
  cases l with
  | nil => simp [np_argmax] at h
  | cons x xs =>
      have h0 : argmaxAux xs x 0 1 = r := by simpa [np_argmax] using h
      rcases argmaxAux_spec xs x 0 1 with ⟨heq, hall⟩ | ⟨t, ht, heq, hgt, hall, hfirst⟩
      · have hr : r = 0 := by omega
        subst hr
        refine ⟨by simp, ?_, fun k hk => absurd hk (by omega)⟩
        intro k hk
        cases k with
        | zero => simp
        | succ k => simpa using hall k (by simpa using hk)
      · have hr : r = t + 1 := by omega
        subst hr
        refine ⟨by simpa using ht, ?_, ?_⟩
        · intro k hk
          cases k with
          | zero => simpa using le_of_lt hgt
          | succ k => simpa using hall k (by simpa using hk)
        · intro k hk
          cases k with
          | zero => simpa using hgt
          | succ k => simpa using hfirst k (by omega)

theorem np_argmax_of_ne_nil (l : List ℚ) (h : l ≠ []) : ∃ r, np_argmax l = some r := by
  cases l with
  | nil => exact absurd rfl h
  | cons x xs => exact ⟨argmaxAux xs x 0 1, rfl⟩

theorem argminAux_const (l : List ℚ) : ∀ (bv : ℚ) (bi i : Nat),
    (∀ k, k < l.length → bv ≤ l.getD k 0) → argminAux l bv bi i = bi := by
  induction l with
  | nil => intro bv bi i _; rfl
  | cons x xs ih =>
      intro bv bi i hall
      have hx : bv ≤ x := by simpa using hall 0 (by simp)
      have hnlt : ¬ x < bv := not_lt.mpr hx
      simp only [argminAux, if_neg hnlt]
      exact ih bv bi (i + 1) (fun k hk => by simpa using hall (k + 1) (by simpa using hk))

theorem argminAux_unique_neg (l : List ℚ) : ∀ (bv : ℚ) (bi i t : Nat),
    t < l.length → l.getD t 0 < bv → (∀ k, k < l.length → k ≠ t → l.getD k 0 = bv) →
    argminAux l bv bi i = i + t := by
  induction l with
  | nil => intro bv bi i t ht _ _; simp at ht
  | cons x xs ih =>
      intro bv bi i t ht hneg hrest
      cases t with
      | zero =>
          have hx : x < bv := by simpa using hneg
          simp only [argminAux, if_pos hx]
          have hconst : argminAux xs x i (i + 1) = i := by
            refine argminAux_const xs x i (i + 1) ?_
            intro k hk
            have heq : xs.getD k 0 = bv := by
              simpa using hrest (k + 1) (by simpa using hk) (by omega)
            rw [heq]; exact le_of_lt hx
          rw [hconst]; omega
      | succ t =>
          have hx : x = bv := by simpa using hrest 0 (by simp) (by omega)
          have hnlt : ¬ x < bv := by rw [hx]; exact lt_irrefl bv
          simp only [argminAux, if_neg hnlt]
          have hrec := ih bv bi (i + 1) t (by simpa using ht) (by simpa using hneg)
            (fun k hk hne => by simpa using hrest (k + 1) (by simpa using hk) (by omega))
          rw [hrec]; omega

/-! ## List access helper lemmas -/

theorem getD_map_range {α : Type} (n : Nat) (f : Nat → α) (i : Nat) (d : α) (h : i < n) :
    ((List.range n).map f).getD i d = f i := by
  rw [List.getD_eq_getElem?_getD]
  simp [List.getElem?_map, List.getElem?_range, h]

theorem getD_map_fn {α β : Type} (f : α → β) (l : List α) (k : Nat)
    (d : β) (dA : α) (h : k < l.length) : (l.map f).getD k d = f (l.getD k dA) := by
  rw [List.getD_eq_getElem?_getD, List.getD_eq_getElem?_getD]
  simp [List.getElem?_map, List.getElem?_eq_getElem h]

/-! ## Claims about the BitString class -/

/-- C7: for every BitString of length L at least 1 whose current state is a
bit vector of length L, find_neighbors produces exactly L neighbor
vectors, the i-th being the current state with only the bit at position i
flipped; the state and fitness fields are left unchanged (the result is a
deterministic function of the current state). -/
theorem find_neighbors_flip_spec (b : BitString) (hlen : b.state.length = b.length)
    (hbits : ∀ x ∈ b.state, x = 0 ∨ x = 1) (hL : 1 ≤ b.length) :
    (b.find_neighbors).neighbors.length = b.length ∧
    (∀ i, i < b.length → (b.find_neighbors).neighbors.getD i [] =
        b.state.set i (1 - b.state.getD i 0)) ∧
    (b.find_neighbors).state = b.state ∧ (b.find_neighbors).fitness = b.fitness := by
  refine ⟨by simp [BitString.find_neighbors], ?_, rfl, rfl⟩
  intro i hi
  have h1 : (b.find_neighbors).neighbors.getD i [] =
      b.state.set i (flipEntry (b.state.getD i 0)) := by
    simp only [BitString.find_neighbors]
    exact getD_map_range b.length _ i [] hi
  rw [h1]
  have hmem : b.state.getD i 0 ∈ b.state := by
    have hi2 : i < b.state.length := by omega
    rw [List.getD_eq_getElem?_getD, List.getElem?_eq_getElem hi2]
    exact List.getElem_mem hi2
  rcases hbits _ hmem with h0 | h0 <;> rw [h0] <;> norm_num [flipEntry]

theorem find_neighbors_flip_spec_witness :
    (let b := (BitString.init 2 OneMax.evaluate).set_state [0, 1]
     b.state.length = b.length ∧ (∀ x ∈ b.state, x = 0 ∨ x = 1) ∧ 1 ≤ b.length ∧
     ((b.find_neighbors).neighbors.length = b.length ∧
      (∀ i, i < b.length → (b.find_neighbors).neighbors.getD i [] =
          b.state.set i (1 - b.state.getD i 0)) ∧
      (b.find_neighbors).state = b.state ∧ (b.find_neighbors).fitness = b.fitness)) :=
  ⟨by decide, by decide, by decide,
    find_neighbors_flip_spec _ (by decide) (by decide) (by decide)⟩

/-- C8: for a non-empty computed neighbor list, best_neighbor returns the
neighbor of maximal evaluator fitness, ties broken by the first occurrence
in index order; in particular for length 4, the count-of-ones evaluator
and state [0,1,0,0] it returns [1,1,0,0] although [0,1,1,0] and [0,1,0,1]
also have fitness 2. -/
theorem best_neighbor_max_first (b : BitString) (h : b.neighbors ≠ []) :
    (∃ i, i < b.neighbors.length ∧
      b.best_neighbor = some (b.neighbors.getD i []) ∧
      (∀ j, j < b.neighbors.length →
        b.fitness_fn (b.neighbors.getD j []) ≤ b.fitness_fn (b.neighbors.getD i [])) ∧
      (∀ j, j < i →
        b.fitness_fn (b.neighbors.getD j []) < b.fitness_fn (b.neighbors.getD i []))) ∧
    ((BitString.init 4 OneMax.evaluate).set_state [0, 1, 0, 0]).find_neighbors.best_neighbor
      = some [1, 1, 0, 0] := by
  refine ⟨?_, by rfl⟩
  have hfl : b.neighbors.map b.fitness_fn ≠ [] := by simpa using h
  obtain ⟨r, hr⟩ := np_argmax_of_ne_nil _ hfl
  obtain ⟨hrlt, hall, hfirst⟩ := np_argmax_spec _ r hr
  rw [List.length_map] at hrlt
  refine ⟨r, hrlt, ?_, ?_, ?_⟩
  · simp [BitString.best_neighbor, hr]
  · intro j hj
    have h1 := hall j (by rw [List.length_map]; exact hj)
    rwa [getD_map_fn b.fitness_fn b.neighbors j 0 [] hj,
      getD_map_fn b.fitness_fn b.neighbors r 0 [] hrlt] at h1
  · intro j hj
    have h1 := hfirst j hj
    rwa [getD_map_fn b.fitness_fn b.neighbors j 0 [] (lt_trans hj hrlt),
      getD_map_fn b.fitness_fn b.neighbors r 0 [] hrlt] at h1

theorem best_neighbor_max_first_witness :
    (((BitString.init 4 OneMax.evaluate).set_state [0, 1, 0, 0]).find_neighbors.neighbors ≠ []) ∧
    (let b := ((BitString.init 4 OneMax.evaluate).set_state [0, 1, 0, 0]).find_neighbors
     (∃ i, i < b.neighbors.length ∧
       b.best_neighbor = some (b.neighbors.getD i []) ∧
       (∀ j, j < b.neighbors.length →
         b.fitness_fn (b.neighbors.getD j []) ≤ b.fitness_fn (b.neighbors.getD i [])) ∧
       (∀ j, j < i →
         b.fitness_fn (b.neighbors.getD j []) < b.fitness_fn (b.neighbors.getD i []))) ∧
     ((BitString.init 4 OneMax.evaluate).set_state [0, 1, 0, 0]).find_neighbors.best_neighbor
       = some [1, 1, 0, 0]) :=
  ⟨by decide, best_neighbor_max_first _ (by decide)⟩

/-- C10: on a freshly constructed BitString the stored neighbor list is
the empty list, and best_neighbor applied to it returns no neighbor (the
np.argmax of the empty fitness list fails), so best_neighbor implicitly
requires a prior find_neighbors call. -/
theorem best_neighbor_unset_fails (L : Nat) (f : List Int → ℚ) :
    (BitString.init L f).neighbors = [] ∧ (BitString.init L f).best_neighbor = none :=
  ⟨rfl, rfl⟩

/-! ## The Genetic class (bitstring.py lines 157-267) -/

/-- State of a Python Genetic object: the inherited BitString fields plus
the population, its fitness values, and the reproduction probabilities
(whose entries can be the non-finite marker none, since numpy division by
a zero total produces NaN / inf values). -/
structure Genetic extends BitString where
  population : List (List Int)
  pop_fitness : List ℚ
  probs : List (Option ℚ)

/-- Genetic.__init__ (lines 160-174): BitString fields plus empty
population, fitness and probability lists. -/
def Genetic.init (length : Nat) (fitness_fn : List Int → ℚ) : Genetic :=
  { toBitString := BitString.init length fitness_fn
    population := []
    pop_fitness := []
    probs := [] }

/-- Genetic.set_population (lines 235-254): store the supplied population
and recompute the fitness of every member.  The source performs no length
check on the members. -/
def Genetic.set_population (g : Genetic) (new_population : List (List Int)) : Genetic :=
  { g with population := new_population
           pop_fitness := new_population.map g.fitness_fn }

/-- Genetic.calculate_probs (lines 211-220):
probs = pop_fitness / np.sum(pop_fitness), an elementwise numpy division
by the (unchecked) total fitness. -/
def Genetic.calculate_probs (g : Genetic) : Genetic :=
  { g with probs := g.pop_fitness.map (fun f => npDiv f g.pop_fitness.sum) }

/-! ## Claims about dimension checks and selection probabilities -/

/-- C5 counterexample: a length-1 bit vector supplied to set_state on a
length-2 problem is accepted and stored (no DimensionMismatch is
surfaced), and likewise a population whose single member has length 1 is
accepted by set_population on a length-2 problem. -/
theorem set_state_accepts_mismatch_cex :
    ((BitString.init 2 OneMax.evaluate).set_state [1]).state = [1] ∧
    ((BitString.init 2 OneMax.evaluate).set_state [1]).state.length = 1 ∧
    ((BitString.init 2 OneMax.evaluate).set_state [1]).length = 2 ∧
    ((BitString.init 2 OneMax.evaluate).set_state [1]).fitness = 1 ∧
    ((Genetic.init 2 OneMax.evaluate).set_population [[1]]).population = [[1]] ∧
    ((Genetic.init 2 OneMax.evaluate).set_population [[1]]).pop_fitness = [1] :=
  ⟨rfl, rfl, rfl, rfl, rfl, rfl⟩

/-- C5 amended: BitString.set_state stores any supplied bit vector
without validating its length against the declared problem length, and
Genetic.set_population stores any supplied population likewise; both
recompute fitness on the stored data and neither surfaces a
DimensionMismatch error. -/
theorem set_state_set_population_no_validation (b : BitString) (s : List Int)
    (g : Genetic) (P : List (List Int)) :
    (b.set_state s).state = s ∧ (b.set_state s).fitness = b.fitness_fn s ∧
    (b.set_state s).length = b.length ∧
    (g.set_population P).population = P ∧
    (g.set_population P).pop_fitness = P.map g.fitness_fn ∧
    (g.set_population P).length = g.length :=
  ⟨rfl, rfl, rfl, rfl, rfl, rfl⟩

/-- C6 counterexample: on a population of two members of fitness 0 each,
the total fitness is 0 and calculate_probs silently stores the
non-finite (NaN) marker for every entry instead of failing with a
DegenerateDistribution error. -/
theorem calculate_probs_nan_cex :
    (((Genetic.init 1 OneMax.evaluate).set_population [[0], [0]]).calculate_probs).probs
      = [none, none] ∧
    (((Genetic.init 1 OneMax.evaluate).set_population [[0], [0]]).pop_fitness).sum = 0 := by
  constructor <;>
    norm_num [Genetic.calculate_probs, Genetic.set_population, Genetic.init,
      BitString.init, OneMax.evaluate, npDiv]

theorem sum_map_mul_right_rat (l : List ℚ) (r : ℚ) :
    (l.map (fun x => x * r)).sum = l.sum * r := by
  induction l with
  | nil => simp
  | cons x xs ih => simp [ih, add_mul]

/-- C6 amended: calculate_probs divides each member fitness by the total
population fitness: when the total is nonzero every stored entry is the
finite quotient fitness / total and these quotients sum to 1; when the
total fitness is 0 every stored entry is the non-finite NaN marker, and
no error is raised in either case. -/
theorem calculate_probs_div_or_nan (g : Genetic) :
    ((g.calculate_probs).probs = if g.pop_fitness.sum = 0
        then g.pop_fitness.map (fun _ => none)
        else g.pop_fitness.map (fun f => some (f / g.pop_fitness.sum))) ∧
    (g.pop_fitness.sum ≠ 0 →
      (g.pop_fitness.map (fun f => f / g.pop_fitness.sum)).sum = 1) := by
  constructor
  · by_cases h : g.pop_fitness.sum = 0
    · simp only [Genetic.calculate_probs, if_pos h]
      exact List.map_congr_left (fun f _ => by simp [npDiv, h])
    · simp only [Genetic.calculate_probs, if_neg h]
      exact List.map_congr_left (fun f _ => by simp [npDiv, h])
  · intro h
    have hs : (g.pop_fitness.map (fun f => f / g.pop_fitness.sum)).sum
        = g.pop_fitness.sum / g.pop_fitness.sum := by
      simp only [div_eq_mul_inv]
      rw [sum_map_mul_right_rat]
    rw [hs, div_self h]

theorem calculate_probs_div_or_nan_witness :
    ((((Genetic.init 1 OneMax.evaluate).set_population [[1], [0], [1]]).pop_fitness).sum ≠ 0) ∧
    ((((Genetic.init 1 OneMax.evaluate).set_population [[1], [0], [1]]).calculate_probs).probs
        = [some (1 / 2), some 0, some (1 / 2)]) ∧
    (let g := (Genetic.init 1 OneMax.evaluate).set_population [[1], [0], [1]]
     (g.pop_fitness.map (fun f => f / g.pop_fitness.sum)).sum = 1) := by
  have hsum : (((Genetic.init 1 OneMax.evaluate).set_population
      [[1], [0], [1]]).pop_fitness).sum ≠ 0 := by
    norm_num [Genetic.set_population, Genetic.init, BitString.init, OneMax.evaluate]
  refine ⟨hsum, ?_, (calculate_probs_div_or_nan _).2 hsum⟩
  have h := (calculate_probs_div_or_nan
    ((Genetic.init 1 OneMax.evaluate).set_population [[1], [0], [1]])).1
  rw [h, if_neg hsum]
  norm_num [Genetic.set_population, Genetic.init, BitString.init, OneMax.evaluate]

/-! ## Percentile (np.percentile with linear interpolation) -/

/-- Model of np.sort on a float array: the ascending reordering (unique
for a totally ordered element type). -/
def np_sort (a : List ℚ) : List ℚ := List.insertionSort (· ≤ ·) a

/-- Model of np.percentile(a, q) with the default linear interpolation:
the order statistic of the sorted data at virtual index q / 100 * (n - 1),
linearly interpolated between the two neighboring entries (np.percentile
raises on an empty array; the claims below only use a nonempty one). -/
def np_percentile (a : List ℚ) (q : ℚ) : ℚ :=
  let s := np_sort a
  let n := a.length
  let hq : ℚ := q * ((n : ℚ) - 1) / 100
  let i : Nat := (⌊hq⌋).toNat
  let f : ℚ := hq - (i : ℚ)
  if i + 1 < n then s.getD i 0 + f * (s.getD (i + 1) 0 - s.getD i 0)
  else s.getD (n - 1) 0

theorem np_sort_perm (a : List ℚ) : (np_sort a).Perm a := List.perm_insertionSort _ a

theorem np_sort_sorted (a : List ℚ) : List.Sorted (· ≤ ·) (np_sort a) :=
  List.sorted_insertionSort _ a

theorem sorted_getD_mono (s : List ℚ) (hs : List.Sorted (· ≤ ·) s) (j k : Nat)
    (hjk : j ≤ k) (hk : k < s.length) : s.getD j 0 ≤ s.getD k 0 := by
  have hj : j < s.length := lt_of_le_of_lt hjk hk
  rw [List.getD_eq_getElem s 0 hj, List.getD_eq_getElem s 0 hk]
  exact hs.rel_get_of_le (a := ⟨j, hj⟩) (b := ⟨k, hk⟩) hjk

/-- Linear-interpolation percentile never exceeds the last entry of the
sorted data, for any percentile rank q in [0, 100). -/
theorem np_percentile_le_sorted_last (a : List ℚ) (q : ℚ) (hne : a ≠ [])
    (hq0 : 0 ≤ q) (hq1 : q < 100) :
    np_percentile a q ≤ (np_sort a).getD (a.length - 1) 0 := by
  have hlen : (np_sort a).length = a.length := (np_sort_perm a).length_eq
  have hn : 1 ≤ a.length := List.length_pos.mpr hne
  set s := np_sort a with hs_def
  set n := a.length with hn_def
  set hq : ℚ := q * ((n : ℚ) - 1) / 100 with hq_def
  set i : Nat := (⌊hq⌋).toNat with hi_def
  by_cases hcase : i + 1 < n
  · have hq_nonneg : 0 ≤ hq := by
      apply div_nonneg _ (by norm_num)
      apply mul_nonneg hq0
      have : (1 : ℚ) ≤ (n : ℚ) := by exact_mod_cast hn
      linarith
    have hfloor_cast : ((i : ℤ) : ℚ) = ((⌊hq⌋ : ℤ) : ℚ) := by
      rw [hi_def, Int.toNat_of_nonneg (Int.floor_nonneg.mpr hq_nonneg)]
    have hf0 : 0 ≤ hq - (i : ℚ) := by
      have := Int.floor_le hq
      push_cast at hfloor_cast ⊢
      linarith [hfloor_cast ▸ this]
    have hf1 : hq - (i : ℚ) ≤ 1 := by
      have := Int.lt_floor_add_one hq
      push_cast at hfloor_cast ⊢
      rw [hfloor_cast]
      linarith
    have hstep : s.getD i 0 ≤ s.getD (i + 1) 0 := by
      apply sorted_getD_mono s (np_sort_sorted a) i (i + 1) (by omega)
      rw [hlen]; omega
    have hlast : s.getD (i + 1) 0 ≤ s.getD (n - 1) 0 := by
      apply sorted_getD_mono s (np_sort_sorted a) (i + 1) (n - 1) (by omega)
      rw [hlen]; omega
    have hval : np_percentile a q
        = s.getD i 0 + (hq - (i : ℚ)) * (s.getD (i + 1) 0 - s.getD i 0) := by
      rw [np_percentile]
      simp only [← hs_def, ← hn_def, ← hq_def, ← hi_def, if_pos hcase]
    rw [hval]
    nlinarith [sub_nonneg.mpr hstep]
  · have hval : np_percentile a q = s.getD (n - 1) 0 := by
      rw [np_percentile]
      simp only [← hs_def, ← hn_def, ← hq_def, ← hi_def, if_neg hcase]
    rw [hval]

/-! ## The ProbOpt class (bitstring.py lines 269-413) -/

/-- State of a Python ProbOpt object (the MIMIC-style optimizer).  In the
source ProbOpt inherits from Genetic; the fields its own methods read are
kept here.  __init__ (lines 273-287) re-binds the probs attribute to a
2 x length conditional probability table (np.zeros([2, length])),
modelled as a function of the row index (parent bit value) and the
column index (bit position). -/
structure ProbOpt where
  length : Nat
  fitness_fn : List Int → ℚ
  population : List (List Int)
  pop_fitness : List ℚ
  keep_sample : List (List Int)
  probs : Nat → Nat → ℚ
  parent : List Nat

/-- ProbOpt.__init__ (lines 273-287). -/
def ProbOpt.init (length : Nat) (fitness_fn : List Int → ℚ) : ProbOpt :=
  { length := length
    fitness_fn := fitness_fn
    population := []
    pop_fitness := []
    keep_sample := []
    probs := fun _ _ => 0
    parent := [] }

/-- Row indices at which a float array reaches a threshold:
np.where(pop_fitness >= theta)[0] (line 302). -/
def np_where_ge (l : List ℚ) (theta : ℚ) : List Nat :=
  (List.range l.length).filter (fun i => theta ≤ l.getD i 0)

/-- ProbOpt.select_keep_sample (lines 289-305): percentile threshold at
rank 100*(1 - keep_pct), then keep the population rows whose fitness is
at or above the threshold. -/
def ProbOpt.select_keep_sample (p : ProbOpt) (keep_pct : ℚ) : ProbOpt :=
  let theta := np_percentile p.pop_fitness (100 * (1 - keep_pct))
  let keep_inds := np_where_ge p.pop_fitness theta
  { p with keep_sample := keep_inds.map (fun i => p.population.getD i []) }

/-! ## Claim C9 -/

/-- C9: for a nonempty population and keep fraction in (0, 1], the
percentile threshold of select_keep_sample never exceeds the maximum
population fitness; an index of maximal fitness passes the
fitness-at-least-threshold filter, so the selected elite sample is
nonempty (the empty-elite case is unreachable from a nonempty
population). -/
theorem select_keep_sample_nonempty (p : ProbOpt) (keep_pct : ℚ)
    (hne : p.pop_fitness ≠ []) (h0 : 0 < keep_pct) (h1 : keep_pct ≤ 1) :
    ∃ m, (∀ x ∈ p.pop_fitness, x ≤ m) ∧
      np_percentile p.pop_fitness (100 * (1 - keep_pct)) ≤ m ∧
      (∃ idx, idx < p.pop_fitness.length ∧ p.pop_fitness.getD idx 0 = m ∧
        idx ∈ np_where_ge p.pop_fitness
          (np_percentile p.pop_fitness (100 * (1 - keep_pct)))) ∧
      (p.select_keep_sample keep_pct).keep_sample ≠ [] := by
  have hq0 : 0 ≤ 100 * (1 - keep_pct) := by linarith
  have hq1 : 100 * (1 - keep_pct) < 100 := by linarith
  have hlen : (np_sort p.pop_fitness).length = p.pop_fitness.length :=
    (np_sort_perm p.pop_fitness).length_eq
  have hn : 1 ≤ p.pop_fitness.length := List.length_pos.mpr hne
  set m := (np_sort p.pop_fitness).getD (p.pop_fitness.length - 1) 0 with hm_def
  have hmax : ∀ x ∈ p.pop_fitness, x ≤ m := by
    intro x hx
    have hxs : x ∈ np_sort p.pop_fitness := (np_sort_perm p.pop_fitness).mem_iff.mpr hx
    obtain ⟨j, hj, hjx⟩ := List.getElem_of_mem hxs
    have : (np_sort p.pop_fitness).getD j 0 = x := by
      rw [List.getD_eq_getElem _ 0 hj]; exact hjx
    rw [← this]
    exact sorted_getD_mono _ (np_sort_sorted p.pop_fitness) j
      (p.pop_fitness.length - 1) (by omega) (by omega)
  have htheta : np_percentile p.pop_fitness (100 * (1 - keep_pct)) ≤ m :=
    np_percentile_le_sorted_last p.pop_fitness _ hne hq0 hq1
  have hm_mem : m ∈ p.pop_fitness := by
    have : m ∈ np_sort p.pop_fitness := by
      rw [hm_def, List.getD_eq_getElem _ 0 (by omega)]
      exact List.getElem_mem _
    exact (np_sort_perm p.pop_fitness).mem_iff.mp this
  obtain ⟨idx, hidx, hidxval⟩ := List.getElem_of_mem hm_mem
  have hidxD : p.pop_fitness.getD idx 0 = m := by
    rw [List.getD_eq_getElem _ 0 hidx]; exact hidxval
  have hidx_keep : idx ∈ np_where_ge p.pop_fitness
      (np_percentile p.pop_fitness (100 * (1 - keep_pct))) := by
    rw [np_where_ge, List.mem_filter]
    refine ⟨List.mem_range.mpr hidx, ?_⟩
    rw [decide_eq_true_eq, hidxD]
    exact htheta
  refine ⟨m, hmax, htheta, ⟨idx, hidx, hidxD, hidx_keep⟩, ?_⟩
  have : p.population.getD idx [] ∈ (p.select_keep_sample keep_pct).keep_sample := by
    simp only [ProbOpt.select_keep_sample]
    exact List.mem_map_of_mem _ hidx_keep
  exact List.ne_nil_of_mem this

theorem select_keep_sample_nonempty_witness :
    (let p := { ProbOpt.init 1 OneMax.evaluate with
                  population := [[0], [1]], pop_fitness := [0, 1] }
     p.pop_fitness ≠ [] ∧ (0 : ℚ) < 1 / 2 ∧ (1 : ℚ) / 2 ≤ 1 ∧
     (∃ m, (∀ x ∈ p.pop_fitness, x ≤ m) ∧
       np_percentile p.pop_fitness (100 * (1 - 1 / 2)) ≤ m ∧
       (∃ idx, idx < p.pop_fitness.length ∧ p.pop_fitness.getD idx 0 = m ∧
         idx ∈ np_where_ge p.pop_fitness
           (np_percentile p.pop_fitness (100 * (1 - 1 / 2)))) ∧
       (p.select_keep_sample (1 / 2)).keep_sample ≠ [])) :=
  ⟨by simp, by norm_num, by norm_num,
    select_keep_sample_nonempty _ (1 / 2) (by simp) (by norm_num) (by norm_num)⟩

/-! ## Parent arrays as rooted trees -/

/-- Link-following map of a parent array: position 0 is the root and maps
to itself; position i at least 1 maps to parent[i - 1]. -/
def parFun (parent : List Nat) (i : Nat) : Nat :=
  if i = 0 then 0 else parent.getD (i - 1) 0

/-- The parent array of length L - 1 describes a proper rooted tree over
the L = parent.length + 1 bit positions: every stored parent index is a
valid position and following parent links from any position reaches the
root 0 in fewer than L steps. -/
def IsTreeParent (parent : List Nat) : Prop :=
  (∀ x ∈ parent, x < parent.length + 1) ∧
  ∀ i, i < parent.length + 1 →
    ∃ k, k < parent.length + 1 ∧ (parFun parent)^[k] i = 0

/-- Number of parent links from position i to the root, computed with
explicit fuel; with fuel at least the true chain length this is the
depth of position i in the tree. -/
def chainDepth (parent : List Nat) : Nat → Nat → Nat
  | 0, _ => 0
  | fuel + 1, i => if i = 0 then 0 else chainDepth parent fuel (parFun parent i) + 1

/-- Depth of a position in the parent tree (root has depth 0); the fuel
parent.length + 1 is enough for any proper tree. -/
def treeDepth (parent : List Nat) (i : Nat) : Nat :=
  chainDepth parent (parent.length + 1) i

theorem chainDepth_eq_of_min (parent : List Nat) :
    ∀ (k fuel i : Nat), (parFun parent)^[k] i = 0 →
    (∀ j, j < k → (parFun parent)^[j] i ≠ 0) → k ≤ fuel →
    chainDepth parent fuel i = k := by
  intro k
  induction k with
  | zero =>
      intro fuel i h0 _ _
      have hi : i = 0 := by simpa using h0
      subst hi
      cases fuel with
      | zero => rfl
      | succ fuel => simp [chainDepth]
  | succ k ih =>
      intro fuel i h0 hmin hle
      have hi : i ≠ 0 := by simpa using hmin 0 (Nat.succ_pos k)
      obtain ⟨fuel2, rfl⟩ : ∃ f, fuel = f + 1 := ⟨fuel - 1, by omega⟩
      simp only [chainDepth, if_neg hi]
      have h02 : (parFun parent)^[k] (parFun parent i) = 0 := by
        rw [← Function.iterate_succ_apply]; exact h0
      have hmin2 : ∀ j, j < k → (parFun parent)^[j] (parFun parent i) ≠ 0 := by
        intro j hj
        rw [← Function.iterate_succ_apply]
        exact hmin (j + 1) (by omega)
      rw [ih fuel2 (parFun parent i) h02 hmin2 (by omega)]

theorem parFun_lt (parent : List Nat) (hstruct : ∀ x ∈ parent, x < parent.length + 1)
    (i : Nat) : parFun parent i < parent.length + 1 := by
  rw [parFun]
  by_cases hi : i = 0
  · simp [hi]
  · rw [if_neg hi]
    by_cases hlen : i - 1 < parent.length
    · apply hstruct
      rw [List.getD_eq_getElem _ 0 hlen]
      exact List.getElem_mem hlen
    · rw [List.getD_eq_getElem?_getD, List.getElem?_eq_none (by omega)]
      simp

theorem exists_iter_zero (parent : List Nat) (htree : IsTreeParent parent) (i : Nat)
    (hi : i < parent.length + 1) : ∃ k, (parFun parent)^[k] i = 0 := by
  obtain ⟨k, _, hk⟩ := htree.2 i hi
  exact ⟨k, hk⟩

theorem treeDepth_eq_find (parent : List Nat) (htree : IsTreeParent parent) (i : Nat)
    (hi : i < parent.length + 1) :
    treeDepth parent i = Nat.find (exists_iter_zero parent htree i hi) := by
  apply chainDepth_eq_of_min
  · exact Nat.find_spec (exists_iter_zero parent htree i hi)
  · exact fun j hj => Nat.find_min (exists_iter_zero parent htree i hi) hj
  · obtain ⟨k, hkL, hk⟩ := htree.2 i hi
    have := Nat.find_min' (exists_iter_zero parent htree i hi) hk
    omega

theorem treeDepth_zero (parent : List Nat) : treeDepth parent 0 = 0 := by
  simp [treeDepth, chainDepth]

theorem treeDepth_lt (parent : List Nat) (htree : IsTreeParent parent) (i : Nat)
    (hi : i < parent.length + 1) : treeDepth parent i < parent.length + 1 := by
  rw [treeDepth_eq_find parent htree i hi]
  obtain ⟨k, hkL, hk⟩ := htree.2 i hi
  have := Nat.find_min' (exists_iter_zero parent htree i hi) hk
  omega

theorem treeDepth_succ (parent : List Nat) (htree : IsTreeParent parent) (i : Nat)
    (h1 : 1 ≤ i) (hi : i < parent.length + 1) :
    treeDepth parent i = treeDepth parent (parFun parent i) + 1 := by
  have hpar_lt : parFun parent i < parent.length + 1 := parFun_lt parent htree.1 i
  rw [treeDepth_eq_find parent htree i hi,
    treeDepth_eq_find parent htree (parFun parent i) hpar_lt]
  set K := Nat.find (exists_iter_zero parent htree i hi) with hK_def
  set K2 := Nat.find (exists_iter_zero parent htree (parFun parent i) hpar_lt) with hK2_def
  have hKspec : (parFun parent)^[K] i = 0 := by
    rw [hK_def]; exact Nat.find_spec (exists_iter_zero parent htree i hi)
  have hK1 : 1 ≤ K := by
    by_contra h
    have hK0 : K = 0 := by omega
    rw [hK0] at hKspec
    simp at hKspec
    omega
  have hK2le : K2 ≤ K - 1 := by
    apply Nat.find_min'
    have : (parFun parent)^[K - 1] (parFun parent i) = (parFun parent)^[K] i := by
      rw [← Function.iterate_succ_apply]
      congr 1
      omega
    rw [this, hKspec]
  have hK2ge : ¬ K2 < K - 1 := by
    intro hlt
    have : (parFun parent)^[K2 + 1] i = 0 := by
      rw [Function.iterate_succ_apply]
      exact Nat.find_spec (exists_iter_zero parent htree (parFun parent i) hpar_lt)
    exact Nat.find_min (exists_iter_zero parent htree i hi) (by omega) this
  omega

/-! ## find_sample_order (bitstring.py lines 355-377) -/

/-- Children of node i: list(np.where(np.array(parent) == i)[0] + 1)
(line 372), the positions whose stored parent is i, in increasing
order. -/
def whereEq (parent : List Nat) (i : Nat) : List Nat :=
  ((List.range parent.length).filter (fun t => parent.getD t 0 = i)).map (fun t => t + 1)

/-- While loop of ProbOpt.find_sample_order (lines 368-375) with explicit
fuel: while the accumulated order is shorter than len(parent) + 1, append
the current frontier and replace it by the concatenation of the children
lists of its members.  The Python loop runs forever on a malformed parent
array; on a proper tree it performs at most len(parent) + 1 iterations,
which the fuel len(parent) + 2 used below always covers. -/
def fsoAux (parent : List Nat) : Nat → List Nat → List Nat → List Nat
  | 0, sample_order, _ => sample_order
  | fuel + 1, sample_order, last =>
      if sample_order.length < parent.length + 1 then
        fsoAux parent fuel (sample_order ++ last) (last.flatMap (whereEq parent))
      else sample_order

/-- ProbOpt.find_sample_order (lines 355-377): breadth-first expansion
starting from the frontier [0] and an empty accumulated order. -/
def find_sample_order (parent : List Nat) : List Nat :=
  fsoAux parent (parent.length + 2) [] [0]

/-- Frontier held in the variable last after d iterations of the
find_sample_order loop. -/
def levelList (parent : List Nat) : Nat → List Nat
  | 0 => [0]
  | d + 1 => (levelList parent d).flatMap (whereEq parent)

/-- Accumulated order after d iterations of the find_sample_order loop. -/
def levelConcat (parent : List Nat) : Nat → List Nat
  | 0 => []
  | d + 1 => levelConcat parent d ++ levelList parent d

theorem mem_whereEq (parent : List Nat) (p i : Nat) :
    i ∈ whereEq parent p ↔
      1 ≤ i ∧ i < parent.length + 1 ∧ parFun parent i = p := by
  rw [whereEq]
  simp only [List.mem_map, List.mem_filter, List.mem_range, decide_eq_true_eq]
  constructor
  · rintro ⟨t, ⟨ht, hp⟩, rfl⟩
    refine ⟨by omega, by omega, ?_⟩
    rw [parFun, if_neg (by omega)]
    simpa using hp
  · rintro ⟨h1, hL, hp⟩
    refine ⟨i - 1, ⟨by omega, ?_⟩, by omega⟩
    rw [parFun, if_neg (by omega)] at hp
    exact hp

theorem nodup_whereEq (parent : List Nat) (p : Nat) : (whereEq parent p).Nodup := by
  apply List.Nodup.map (fun a b h => by omega)
  exact (List.nodup_range _).filter _

theorem mem_levelList (parent : List Nat) (htree : IsTreeParent parent) :
    ∀ d i, i ∈ levelList parent d ↔
      (i < parent.length + 1 ∧ treeDepth parent i = d) := by
  intro d
  induction d with
  | zero =>
      intro i
      rw [levelList]
      simp only [List.mem_singleton]
      constructor
      · rintro rfl
        exact ⟨by omega, treeDepth_zero parent⟩
      · rintro ⟨hi, hd⟩
        by_contra hne
        have h1 : 1 ≤ i := by omega
        have := treeDepth_succ parent htree i h1 hi
        omega
  | succ d ih =>
      intro i
      rw [levelList, List.mem_flatMap]
      constructor
      · rintro ⟨p, hp, hip⟩
        obtain ⟨hpL, hpd⟩ := (ih p).mp hp
        obtain ⟨h1, hiL, hpar⟩ := (mem_whereEq parent p i).mp hip
        refine ⟨hiL, ?_⟩
        rw [treeDepth_succ parent htree i h1 hiL, hpar, hpd]
      · rintro ⟨hiL, hd⟩
        have h1 : 1 ≤ i := by
          by_contra h
          have : i = 0 := by omega
          subst this
          rw [treeDepth_zero parent] at hd
          omega
        refine ⟨parFun parent i, ?_, (mem_whereEq parent _ i).mpr ⟨h1, hiL, rfl⟩⟩
        apply (ih _).mpr
        refine ⟨parFun_lt parent htree.1 i, ?_⟩
        have := treeDepth_succ parent htree i h1 hiL
        omega

theorem nodup_levelList (parent : List Nat) (htree : IsTreeParent parent) :
    ∀ d, (levelList parent d).Nodup := by
  intro d
  induction d with
  | zero => simp [levelList]
  | succ d ih =>
      rw [levelList, List.flatMap_def, List.nodup_flatten]
      constructor
      · intro l hl
        obtain ⟨p, _, rfl⟩ := List.mem_map.mp hl
        exact nodup_whereEq parent p
      · rw [List.pairwise_map]
        apply ih.imp
        intro a b hab
        rw [List.disjoint_left]
        intro x hxa hxb
        obtain ⟨_, _, hpa⟩ := (mem_whereEq parent a x).mp hxa
        obtain ⟨_, _, hpb⟩ := (mem_whereEq parent b x).mp hxb
        exact hab (hpa ▸ hpb ▸ rfl)

theorem mem_levelConcat (parent : List Nat) (htree : IsTreeParent parent) :
    ∀ d i, i ∈ levelConcat parent d ↔
      (i < parent.length + 1 ∧ treeDepth parent i < d) := by
  intro d
  induction d with
  | zero => intro i; simp [levelConcat]
  | succ d ih =>
      intro i
      rw [levelConcat, List.mem_append, ih, mem_levelList parent htree]
      omega

theorem nodup_levelConcat (parent : List Nat) (htree : IsTreeParent parent) :
    ∀ d, (levelConcat parent d).Nodup := by
  intro d
  induction d with
  | zero => simp [levelConcat]
  | succ d ih =>
      rw [levelConcat]
      apply List.Nodup.append ih (nodup_levelList parent htree d)
      rw [List.disjoint_left]
      intro x hxc hxl
      have h1 := (mem_levelConcat parent htree d x).mp hxc
      have h2 := (mem_levelList parent htree d x).mp hxl
      omega

theorem levelConcat_split (parent : List Nat) (d e : Nat) (h : d ≤ e) :
    ∃ rest, levelConcat parent e = levelConcat parent d ++ rest := by
  induction e with
  | zero =>
      have hd : d = 0 := by omega
      exact ⟨[], by simp [hd]⟩
  | succ e ih =>
      by_cases hd : d = e + 1
      · exact ⟨[], by simp [hd]⟩
      · obtain ⟨rest, hrest⟩ := ih (by omega)
        refine ⟨rest ++ levelList parent e, ?_⟩
        rw [levelConcat, hrest, List.append_assoc]

theorem levelConcat_head (parent : List Nat) (d : Nat) (h : 1 ≤ d) :
    (levelConcat parent d).head? = some 0 := by
  induction d with
  | zero => omega
  | succ d ih =>
      by_cases hd : d = 0
      · subst hd
        simp [levelConcat, levelList]
      · rw [levelConcat, List.head?_append, ih (by omega)]
        rfl

theorem fsoAux_levels (parent : List Nat) (htree : IsTreeParent parent) :
    ∀ (g d : Nat), d ≤ parent.length + 1 → parent.length + 2 ≤ g + d →
    ∃ e, d ≤ e ∧ e ≤ parent.length + 1 ∧
      fsoAux parent g (levelConcat parent d) (levelList parent d) = levelConcat parent e ∧
      ¬ ((levelConcat parent e).length < parent.length + 1) := by
  intro g
  induction g with
  | zero => intro d hd hg; omega
  | succ g ih =>
      intro d hd hg
      by_cases hcond : (levelConcat parent d).length < parent.length + 1
      · have hd2 : d < parent.length + 1 := by
          by_contra h
          have hdL : d = parent.length + 1 := by omega
          have hsub : List.range (parent.length + 1) ⊆ levelConcat parent d := by
            intro x hx
            rw [List.mem_range] at hx
            exact (mem_levelConcat parent htree d x).mpr
              ⟨hx, hdL ▸ treeDepth_lt parent htree x hx⟩
          have hle := (List.subperm_of_subset (List.nodup_range _) hsub).length_le
          simp only [List.length_range] at hle
          omega
        have hstep : fsoAux parent (g + 1) (levelConcat parent d) (levelList parent d)
            = fsoAux parent g (levelConcat parent (d + 1)) (levelList parent (d + 1)) := by
          simp only [fsoAux, if_pos hcond]
          rfl
        rw [hstep]
        obtain ⟨e, he1, he2, he3, he4⟩ := ih (d + 1) (by omega) (by omega)
        exact ⟨e, by omega, he2, he3, he4⟩
      · refine ⟨d, le_refl d, hd, ?_, hcond⟩
        simp only [fsoAux, if_neg hcond]

/-! ## Claim C3 -/

theorem find_sample_order_props (parent : List Nat) (htree : IsTreeParent parent) :
    (find_sample_order parent).Perm (List.range (parent.length + 1)) ∧
    (find_sample_order parent).head? = some 0 ∧
    ∀ i, 1 ≤ i → i < parent.length + 1 →
      (find_sample_order parent).indexOf (parFun parent i) <
        (find_sample_order parent).indexOf i := by
  obtain ⟨e, he0, he1, he2, he3⟩ :=
    fsoAux_levels parent htree (parent.length + 2) 0 (by omega) (by omega)
  have hfso : find_sample_order parent = levelConcat parent e := he2
  have hnodup : (levelConcat parent e).Nodup := nodup_levelConcat parent htree e
  have hsub : levelConcat parent e ⊆ List.range (parent.length + 1) := by
    intro x hx
    rw [List.mem_range]
    exact ((mem_levelConcat parent htree e x).mp hx).1
  have hperm : (levelConcat parent e).Perm (List.range (parent.length + 1)) := by
    apply (List.subperm_of_subset hnodup hsub).perm_of_length_le
    simp only [List.length_range]
    omega
  have hmem_all : ∀ i, i < parent.length + 1 → i ∈ levelConcat parent e := by
    intro i hi
    exact hperm.mem_iff.mpr (List.mem_range.mpr hi)
  refine ⟨hfso ▸ hperm, ?_, ?_⟩
  · rw [hfso]
    apply levelConcat_head
    by_contra h
    have he_zero : e = 0 := by omega
    subst he_zero
    have := hmem_all 0 (by omega)
    simp [levelConcat] at this
  · intro i h1 hi
    rw [hfso]
    have hdepth_lt_e : treeDepth parent i < e :=
      ((mem_levelConcat parent htree e i).mp (hmem_all i hi)).2
    set di := treeDepth parent i with hdi_def
    obtain ⟨rest, hsplit⟩ := levelConcat_split parent di e (by omega)
    have hpar_lt : parFun parent i < parent.length + 1 := parFun_lt parent htree.1 i
    have hdepth_par : treeDepth parent (parFun parent i) + 1 = di :=
      (treeDepth_succ parent htree i h1 hi).symm
    have hpar_mem : parFun parent i ∈ levelConcat parent di :=
      (mem_levelConcat parent htree di _).mpr ⟨hpar_lt, by omega⟩
    have hi_not_mem : i ∉ levelConcat parent di := by
      intro hmem
      have := ((mem_levelConcat parent htree di i).mp hmem).2
      omega
    rw [hsplit, List.indexOf_append_of_mem hpar_mem,
      List.indexOf_append_of_not_mem hi_not_mem]
    have := List.indexOf_lt_length.mpr hpar_mem
    omega

/-- C3: for every parent array encoding a proper rooted tree over the
L = parent.length + 1 positions rooted at position 0, find_sample_order
terminates (within its fuel) and returns a breadth-first order: a
permutation of all L positions that starts with 0 and in which every
position appears strictly after its parent. -/
theorem find_sample_order_bfs (parent : List Nat) (htree : IsTreeParent parent) :
    (find_sample_order parent).Perm (List.range (parent.length + 1)) ∧
    (find_sample_order parent).head? = some 0 ∧
    ∀ i, 1 ≤ i → i < parent.length + 1 →
      (find_sample_order parent).indexOf (parFun parent i) <
        (find_sample_order parent).indexOf i :=
  find_sample_order_props parent htree

theorem find_sample_order_bfs_witness :
    IsTreeParent [0, 1] ∧
    ((find_sample_order [0, 1]).Perm (List.range 3) ∧
     (find_sample_order [0, 1]).head? = some 0 ∧
     ∀ i, 1 ≤ i → i < 3 →
       (find_sample_order [0, 1]).indexOf (parFun [0, 1] i) <
         (find_sample_order [0, 1]).indexOf i) :=
  ⟨by unfold IsTreeParent; decide,
    find_sample_order_bfs [0, 1] (by unfold IsTreeParent; decide)⟩

/-! ## update_probs and generate_new_sample (bitstring.py lines 307-413) -/

/-- Column i of a sample matrix stored as a list of rows:
keep_sample[:, i]. -/
def column (rows : List (List Int)) (i : Nat) : List Int :=
  rows.map (fun row => row.getD i 0)

/-- Conditional probability table computed by ProbOpt.update_probs
(lines 333-349): probs[:, 0] (both rows) is the mean of column 0 of the
elite sample, 0 when the sample is empty; probs[j, i] for i >= 1 is the
mean of column i over the rows whose entry at parent[i - 1] equals j, 0
when that restricted subset is empty.  Both divisions are guarded by the
emptiness tests of the source, so no division by zero is performed. -/
def computeProbs (keep_sample : List (List Int)) (parent : List Nat)
    (j i : Nat) : ℚ :=
  if i = 0 then
    (if keep_sample = [] then 0
     else (((column keep_sample 0).sum : Int) : ℚ) / (keep_sample.length : ℚ))
  else
    (let subset := keep_sample.filter
        (fun row => row.getD (parent.getD (i - 1) 0) 0 = (j : Int))
     if subset = [] then 0
     else (((column subset i).sum : Int) : ℚ) / (subset.length : ℚ))

/-- Weighted-graph neighbors of node u among the L nodes: scipy stores a
csr entry as an edge exactly when it is nonzero, and with directed=False
an edge in either direction is traversable. -/
def adjList (L : Nat) (w : Nat → Nat → ℚ) (u : Nat) : List Nat :=
  (List.range L).filter (fun v => w u v ≠ 0 ∨ w v u ≠ 0)

/-- State of a depth-first traversal: nodes in order of discovery and
tree edges (parent, child) in order of recording. -/
structure DfsState where
  visited : List Nat
  edges : List (Nat × Nat)

/-- Iterative depth-first traversal with an explicit stack of
(node, discovered-from) pairs, modelling
scipy.sparse.csgraph.depth_first_tree(g, 0, directed=False) (line 327):
when an unvisited node is popped it is marked visited, the tree edge
from its discoverer is recorded (none for the start node 0) and its
neighbors are pushed.  Each step pops one stack entry and at most
1 + L * L entries are ever pushed, so fuel L * L + L + 1 always drains
the stack. -/
def dftAux (L : Nat) (w : Nat → Nat → ℚ) :
    Nat → List (Nat × Nat) → DfsState → DfsState
  | 0, _, s => s
  | _ + 1, [], s => s
  | fuel + 1, (v, p) :: rest, s =>
      if v ∈ s.visited then dftAux L w fuel rest s
      else
        dftAux L w fuel ((adjList L w v).map (fun u => (u, v)) ++ rest)
          { visited := s.visited ++ [v]
            edges := if v = 0 then s.edges else s.edges ++ [(p, v)] }

/-- Depth-first traversal of the weighted graph started at node 0. -/
def depthFirstTreeState (L : Nat) (w : Nat → Nat → ℚ) : DfsState :=
  dftAux L w (L * L + L + 1) [(0, 0)] ⟨[], []⟩

/-- Dense matrix of the depth-first tree, as produced by
depth_first_tree(...).toarray() (lines 327-328): entry (u, v) carries
the weight of the traversed edge (in whichever direction the input
stores it) when the traversal discovered v from u, and 0 elsewhere. -/
def dftMat (L : Nat) (w : Nat → Nat → ℚ) (u v : Nat) : ℚ :=
  if (u, v) ∈ (depthFirstTreeState L w).edges then
    (if w u v ≠ 0 then w u v else w v u)
  else 0

/-- Column argmin over the L rows of a dense matrix:
np.argmin(dft[:, 1:], axis=0) evaluated at column j (line 331). -/
def np_argmin_col (L : Nat) (m : Nat → Nat → ℚ) (j : Nat) : Nat :=
  np_argmin_list ((List.range L).map (fun u => m u j))

/-- Parent-array extraction of ProbOpt.update_probs (lines 323-331):
depth-first tree of the given weight matrix rooted at node 0, then
np.argmin over the rows of each of the columns 1 .. L-1. -/
def buildParent (L : Nat) (w : Nat → Nat → ℚ) : List Nat :=
  (List.range (L - 1)).map (fun t => np_argmin_col L (dftMat L w) (t + 1))

/-- External numeric services called by ProbOpt.update_probs, specified
at their interface only: sklearn.metrics.mutual_info_score of two
columns, and scipy.sparse.csgraph.minimum_spanning_tree mapping a dense
L x L weight matrix to a dense weight matrix (the csr round trips at
lines 324-328 drop explicit zeros on both sides, so both services are
modelled directly on dense matrices). -/
structure Externals where
  mi_score : List Int → List Int → ℚ
  mst : Nat → (Nat → Nat → ℚ) → (Nat → Nat → ℚ)

/-- Mutual information matrix of ProbOpt.update_probs (lines 316-321):
only the upper triangle i < j < L is filled, with -1 times the
mutual_info_score of the two elite-sample columns; all other entries
stay 0. -/
def mutualInfoMatrix (ext : Externals) (L : Nat) (keep : List (List Int))
    (i j : Nat) : ℚ :=
  if i < j ∧ j < L then -1 * ext.mi_score (column keep i) (column keep j) else 0

/-- ProbOpt.update_probs (lines 307-353): mutual information matrix,
minimum spanning tree, depth-first tree rooted at node 0, parent array
by column argmin, then the conditional probability table. -/
def ProbOpt.update_probs (p : ProbOpt) (ext : Externals) : ProbOpt :=
  let mutual_info := mutualInfoMatrix ext p.length p.keep_sample
  let mst := ext.mst p.length mutual_info
  let parent := buildParent p.length mst
  { p with parent := parent
           probs := computeProbs p.keep_sample parent }

/-- Per-candidate body of the sampling loop of
ProbOpt.generate_new_sample (lines 401-411): pick the bit-1 probability
according to the candidate's already-sampled value at the parent
position (rows whose parent entry is neither 0 nor 1 keep the 0 the
probability vector was initialised with, a case that never occurs) and
set bit i to 1 when the candidate's draw at column i is below it. -/
def sampleRowStep (probs : Nat → Nat → ℚ) (parent : List Nat)
    (rand : Nat → Nat → ℚ) (i c : Nat) (row : List ℚ) : List ℚ :=
  let par_ind := parent.getD (i - 1) 0
  let pv := row.getD par_ind 0
  let pc : ℚ := if pv = 0 then probs 0 i else if pv = 1 then probs 1 i else 0
  if rand c i < pc then row.set i 1 else row

/-- ProbOpt.generate_new_sample (lines 379-413), with the k x length
matrix of uniform draws passed explicitly in place of
np.random.uniform: start from the all-zero sample matrix with column 0
set from the root marginal (line 395), then fill the remaining columns
following find_sample_order(parent)[1:]. -/
def ProbOpt.generate_new_sample (p : ProbOpt) (sample_size : Nat)
    (rand : Nat → Nat → ℚ) : List (List ℚ) :=
  let init : List (List ℚ) := (List.range sample_size).map (fun c =>
    (List.range p.length).map (fun j =>
      if j = 0 ∧ rand c 0 < p.probs 0 0 then 1 else 0))
  let sample_order := (find_sample_order p.parent).drop 1
  sample_order.foldl
    (fun m i => m.mapIdx (fun c row => sampleRowStep p.probs p.parent rand i c row))
    init

/-! ## Helper lemmas for the sampling proofs -/

theorem getD_set_self (l : List ℚ) (i : Nat) (x : ℚ) (h : i < l.length) :
    (l.set i x).getD i 0 = x := by
  rw [List.getD_eq_getElem?_getD, List.getElem?_set]
  simp [h]

theorem getD_set_ne (l : List ℚ) (i j : Nat) (x : ℚ) (h : i ≠ j) :
    (l.set i x).getD j 0 = l.getD j 0 := by
  rw [List.getD_eq_getElem?_getD, List.getElem?_set, if_neg h,
    ← List.getD_eq_getElem?_getD]

theorem getD_replicate_zero (n i : Nat) : (List.replicate n (0 : ℚ)).getD i 0 = 0 := by
  rw [List.getD_eq_getElem?_getD]
  by_cases h : i < n
  · rw [List.getElem?_eq_getElem (by simpa using h)]
    simp [List.getElem_replicate]
  · rw [List.getElem?_eq_none (by simpa using h)]
    rfl

theorem mapIdx_fixed {α : Type} (l : List α) (f : Nat → α → α)
    (h : ∀ c x, f c x = x) : l.mapIdx f = l := by
  apply List.ext_getElem (by simp)
  intro n h1 h2
  rw [List.getElem_mapIdx, h]

theorem foldl_const_state {α β : Type} (f : β → α → β) (z : β) (l : List α)
    (h : ∀ i ∈ l, f z i = z) : l.foldl f z = z := by
  induction l with
  | nil => rfl
  | cons x xs ih =>
      rw [List.foldl_cons, h x (by simp)]
      exact ih (fun i hi => h i (by simp [hi]))

/-! ## Claim C4 -/

/-- C4: with an empty elite sample, update_probs completes with an
all-zero conditional probability table (each guarded division is
skipped, so the empty conditioning subsets contribute 0 and no division
error occurs), and generate_new_sample on the resulting state returns
the all-zero sample matrix for every sample size k at least 1 and every
matrix of nonnegative uniform draws. -/
theorem update_probs_empty_elite (p : ProbOpt) (ext : Externals)
    (hkeep : p.keep_sample = []) (k : Nat) (hk1 : 1 ≤ k)
    (rand : Nat → Nat → ℚ) (hrand : ∀ c i, 0 ≤ rand c i) :
    (∀ j i, (p.update_probs ext).probs j i = 0) ∧
    (p.update_probs ext).generate_new_sample k rand
      = List.replicate k (List.replicate p.length 0) := by
  have hprobs : ∀ j i, (p.update_probs ext).probs j i = 0 := by
    intro j i
    show computeProbs p.keep_sample _ j i = 0
    rw [computeProbs, hkeep]
    by_cases hi : i = 0
    · simp [hi]
    · simp [hi]
  refine ⟨hprobs, ?_⟩
  rw [ProbOpt.generate_new_sample]
  have hlen_eq : (p.update_probs ext).length = p.length := rfl
  have hinit : (List.range k).map (fun c =>
      (List.range (p.update_probs ext).length).map (fun j =>
        if j = 0 ∧ rand c 0 < (p.update_probs ext).probs 0 0 then 1 else 0))
      = List.replicate k (List.replicate p.length (0 : ℚ)) := by
    have hrow : ∀ c, (List.range (p.update_probs ext).length).map (fun j =>
        if j = 0 ∧ rand c 0 < (p.update_probs ext).probs 0 0 then 1 else 0)
        = List.replicate p.length (0 : ℚ) := by
      intro c
      have : ∀ j, (if j = 0 ∧ rand c 0 < (p.update_probs ext).probs 0 0
          then (1 : ℚ) else 0) = 0 := by
        intro j
        rw [if_neg]
        rintro ⟨_, hlt⟩
        rw [hprobs 0 0] at hlt
        exact absurd hlt (not_lt.mpr (hrand c 0))
      calc (List.range (p.update_probs ext).length).map (fun j =>
              if j = 0 ∧ rand c 0 < (p.update_probs ext).probs 0 0 then 1 else 0)
          = (List.range (p.update_probs ext).length).map (fun _ => (0 : ℚ)) :=
            List.map_congr_left (fun j _ => this j)
        _ = List.replicate p.length (0 : ℚ) := by
            rw [List.map_const']
            simp [hlen_eq]
    calc (List.range k).map (fun c =>
            (List.range (p.update_probs ext).length).map (fun j =>
              if j = 0 ∧ rand c 0 < (p.update_probs ext).probs 0 0 then 1 else 0))
        = (List.range k).map (fun _ => List.replicate p.length (0 : ℚ)) :=
          List.map_congr_left (fun c _ => hrow c)
      _ = List.replicate k (List.replicate p.length (0 : ℚ)) := by
          rw [List.map_const']
          simp
  rw [hinit]
  apply foldl_const_state
  intro i _
  apply List.ext_getElem (by simp)
  intro n h1 h2
  rw [List.getElem_mapIdx, List.getElem_replicate]
  simp only [sampleRowStep, getD_replicate_zero, if_pos rfl]
  simp [hprobs, not_lt.mpr (hrand n i)]

theorem update_probs_empty_elite_witness :
    (let p := ProbOpt.init 2 OneMax.evaluate
     let ext : Externals := ⟨fun _ _ => 0, fun _ m => m⟩
     p.keep_sample = [] ∧ (1 : Nat) ≤ 1 ∧
     ((∀ j i, (p.update_probs ext).probs j i = 0) ∧
      (p.update_probs ext).generate_new_sample 1 (fun _ _ => 0)
        = List.replicate 1 (List.replicate p.length 0))) :=
  ⟨rfl, by decide,
    update_probs_empty_elite _ _ rfl 1 (by decide) (fun _ _ => 0)
      (fun _ _ => le_refl 0)⟩

/-! ## Claim C2 -/

/-- Specified value of bit j of a candidate row: for the root, compare
the draw at column 0 against the root marginal; otherwise compare the
draw at column j against the table entry selected by the row's sampled
value at the parent position of j. -/
def bitSpec (probs : Nat → Nat → ℚ) (parent : List Nat) (rand : Nat → Nat → ℚ)
    (c : Nat) (row : List ℚ) (j : Nat) : ℚ :=
  if j = 0 then (if rand c 0 < probs 0 0 then 1 else 0)
  else (if rand c j < probs
      (if row.getD (parFun parent j) 0 = 1 then 1 else 0) j then 1 else 0)

theorem foldl_mapIdx_getD (g : Nat → Nat → List ℚ → List ℚ) :
    ∀ (l : List Nat) (m : List (List ℚ)) (c : Nat), c < m.length →
    (l.foldl (fun m2 i => m2.mapIdx (fun cc row => g i cc row)) m).getD c []
      = l.foldl (fun row i => g i c row) (m.getD c []) := by
  intro l
  induction l with
  | nil => intro m c _; rfl
  | cons i l ih =>
      intro m c hc
      rw [List.foldl_cons, List.foldl_cons,
        ih (m.mapIdx (fun cc row => g i cc row)) c (by rw [List.length_mapIdx]; exact hc)]
      congr 1
      rw [List.getD_eq_getElem _ _ (by rw [List.length_mapIdx]; exact hc),
        List.getD_eq_getElem _ _ hc, List.getElem_mapIdx]

theorem parent_mem_prefix (parent : List Nat) (htree : IsTreeParent parent)
    (o1 : List Nat) (i : Nat) (o2 : List Nat)
    (hsplit : find_sample_order parent = o1 ++ i :: o2)
    (h1 : 1 ≤ i) (hiL : i < parent.length + 1) : parFun parent i ∈ o1 := by
  obtain ⟨hperm, _, hpb⟩ := find_sample_order_props parent htree
  have hnodup : (find_sample_order parent).Nodup :=
    hperm.nodup_iff.mpr (List.nodup_range _)
  have hind := hpb i h1 hiL
  rw [hsplit] at hind hnodup
  have hino : i ∉ o1 := by
    intro hmem
    have hdisj := (List.nodup_append.mp hnodup).2.2
    exact hdisj hmem (by simp)
  have hind_i : (o1 ++ i :: o2).indexOf i = o1.length := by
    rw [List.indexOf_append_of_not_mem hino, List.indexOf_cons_self]
    omega
  by_contra hnot
  rw [List.indexOf_append_of_not_mem hnot, hind_i] at hind
  omega

theorem sample_fold_inv (parent : List Nat) (probs rand : Nat → Nat → ℚ) (c : Nat)
    (htree : IsTreeParent parent) :
    ∀ (suf pre : List Nat) (row : List ℚ),
    find_sample_order parent = 0 :: (pre ++ suf) →
    row.length = parent.length + 1 →
    (∀ j, row.getD j 0 = 0 ∨ row.getD j 0 = 1) →
    (∀ j, j = 0 ∨ j ∈ pre → row.getD j 0 = bitSpec probs parent rand c row j) →
    (∀ j, j < parent.length + 1 → j ≠ 0 → j ∉ pre → row.getD j 0 = 0) →
    ((suf.foldl (fun r i => sampleRowStep probs parent rand i c r) row).length
        = parent.length + 1) ∧
    (∀ j, (suf.foldl (fun r i => sampleRowStep probs parent rand i c r) row).getD j 0 = 0 ∨
      (suf.foldl (fun r i => sampleRowStep probs parent rand i c r) row).getD j 0 = 1) ∧
    (∀ j, j = 0 ∨ j ∈ pre ++ suf →
      (suf.foldl (fun r i => sampleRowStep probs parent rand i c r) row).getD j 0
        = bitSpec probs parent rand c
            (suf.foldl (fun r i => sampleRowStep probs parent rand i c r) row) j) ∧
    (∀ j, j < parent.length + 1 → j ≠ 0 → j ∉ pre ++ suf →
      (suf.foldl (fun r i => sampleRowStep probs parent rand i c r) row).getD j 0 = 0) := by
  intro suf
  induction suf with
  | nil =>
      intro pre row hsplit hL h01 hdone hzero
      simp only [List.foldl_nil, List.append_nil]
      exact ⟨hL, h01, hdone, hzero⟩
  | cons i suf2 ih =>
      intro pre row hsplit hL h01 hdone hzero
      obtain ⟨hperm, hhead, hpb⟩ := find_sample_order_props parent htree
      have hnodup : (find_sample_order parent).Nodup :=
        hperm.nodup_iff.mpr (List.nodup_range _)
      have hsplit2 : find_sample_order parent = (0 :: pre) ++ i :: suf2 := by
        rw [hsplit]; rfl
      have hi_mem : i ∈ find_sample_order parent := by
        rw [hsplit2]; simp
      have hiL : i < parent.length + 1 := by
        have := hperm.mem_iff.mp hi_mem
        simpa using this
      have hi_not : i ∉ (0 : Nat) :: pre := by
        intro hmem
        rw [hsplit2] at hnodup
        exact (List.nodup_append.mp hnodup).2.2 hmem (by simp)
      have hi1 : 1 ≤ i := by
        rcases Nat.eq_zero_or_pos i with h | h
        · exact absurd (by simp [h]) hi_not
        · exact h
      have hpar_mem : parFun parent i ∈ (0 : Nat) :: pre :=
        parent_mem_prefix parent htree (0 :: pre) i suf2 hsplit2 hi1 hiL
      have hpar_ne : parFun parent i ≠ i := fun h => hi_not (h ▸ hpar_mem)
      -- the one-step row update
      set row1 := sampleRowStep probs parent rand i c row with hrow1_def
      have hpv01 : row.getD (parFun parent i) 0 = 0 ∨ row.getD (parFun parent i) 0 = 1 :=
        h01 _
      have hstep_eq : row1 = if rand c i < probs
          (if row.getD (parFun parent i) 0 = 1 then 1 else 0) i
          then row.set i 1 else row := by
        rw [hrow1_def, sampleRowStep]
        have hpar_eq : parent.getD (i - 1) 0 = parFun parent i := by
          rw [parFun, if_neg (by omega)]
        rw [hpar_eq]
        rcases hpv01 with h | h <;>
          first
          | (rw [List.getD_eq_getElem?_getD] at h; simp [h])
      have hrow1_len : row1.length = parent.length + 1 := by
        rw [hstep_eq]
        by_cases hlt : rand c i < probs
            (if row.getD (parFun parent i) 0 = 1 then 1 else 0) i
        · rw [if_pos hlt, List.length_set]; exact hL
        · rw [if_neg hlt]; exact hL
      have hrow1_ne : ∀ j, j ≠ i → row1.getD j 0 = row.getD j 0 := by
        intro j hj
        rw [hstep_eq]
        by_cases hlt : rand c i < probs
            (if row.getD (parFun parent i) 0 = 1 then 1 else 0) i
        · rw [if_pos hlt, getD_set_ne _ _ _ _ (fun h => hj h.symm)]
        · rw [if_neg hlt]
      have hrow1_01 : ∀ j, row1.getD j 0 = 0 ∨ row1.getD j 0 = 1 := by
        intro j
        by_cases hj : j = i
        · subst hj
          rw [hstep_eq]
          by_cases hlt : rand c j < probs
              (if row.getD (parFun parent j) 0 = 1 then 1 else 0) j
          · rw [if_pos hlt, getD_set_self _ _ _ (by omega)]
            right; rfl
          · rw [if_neg hlt]; exact h01 j
        · rw [hrow1_ne j hj]; exact h01 j
      -- the parent entry is untouched by the step
      have hpar_row1 : row1.getD (parFun parent i) 0 = row.getD (parFun parent i) 0 :=
        hrow1_ne _ hpar_ne
      -- the value written at position i satisfies its specification
      have hval_i : row1.getD i 0 = bitSpec probs parent rand c row1 i := by
        rw [bitSpec, if_neg (by omega), hpar_row1]
        rw [hstep_eq]
        by_cases hlt : rand c i < probs
            (if row.getD (parFun parent i) 0 = 1 then 1 else 0) i
        · rw [if_pos hlt, if_pos hlt, getD_set_self _ _ _ (by omega)]
        · rw [if_neg hlt, if_neg hlt]
          exact hzero i hiL (by omega) (fun h => hi_not (by simp [h]))
      -- entries settled earlier keep their specification
      have hdone1 : ∀ j, j = 0 ∨ j ∈ pre ++ [i] →
          row1.getD j 0 = bitSpec probs parent rand c row1 j := by
        intro j hj
        rcases hj with hj | hj
        · subst hj
          have h0i : (0 : Nat) ≠ i := by omega
          rw [hrow1_ne 0 h0i, hdone 0 (Or.inl rfl), bitSpec, bitSpec]
          simp
        · rw [List.mem_append] at hj
          rcases hj with hj | hj
          · -- j was settled before this step
            have hji : j ≠ i := fun h => hi_not (List.mem_cons_of_mem 0 (h ▸ hj))
            rw [hrow1_ne j hji, hdone j (Or.inr hj)]
            by_cases hj0 : j = 0
            · rw [hj0, bitSpec, bitSpec]
              simp
            · -- the parent of j is also untouched
              obtain ⟨p1, p2, hp⟩ := List.append_of_mem hj
              have hsplit3 : find_sample_order parent
                  = (0 :: p1) ++ j :: (p2 ++ i :: suf2) := by
                rw [hsplit, hp]; simp
              have hjL : j < parent.length + 1 := by
                have hj_mem : j ∈ find_sample_order parent := by
                  rw [hsplit3]; simp
                simpa using hperm.mem_iff.mp hj_mem
              have hparj_mem : parFun parent j ∈ (0 : Nat) :: p1 :=
                parent_mem_prefix parent htree (0 :: p1) j (p2 ++ i :: suf2)
                  hsplit3 (by omega) hjL
              have hparj_pre : parFun parent j ∈ (0 : Nat) :: pre := by
                rcases List.mem_cons.mp hparj_mem with h | h
                · simp [h]
                · simp [hp, List.mem_append.mpr (Or.inl h)]
              have hparj_ne : parFun parent j ≠ i := fun h => hi_not (h ▸ hparj_pre)
              rw [bitSpec, bitSpec, if_neg hj0, if_neg hj0, hrow1_ne _ hparj_ne]
          · have hji : j = i := by simpa using hj
            rw [hji]
            exact hval_i
      have hzero1 : ∀ j, j < parent.length + 1 → j ≠ 0 → j ∉ pre ++ [i] →
          row1.getD j 0 = 0 := by
        intro j hjL hj0 hjmem
        have hji : j ≠ i := fun h => hjmem (by simp [h])
        have hjpre : j ∉ pre := fun h => hjmem (by simp [h])
        rw [hrow1_ne j hji]
        exact hzero j hjL hj0 hjpre
      have hsplit4 : find_sample_order parent = 0 :: ((pre ++ [i]) ++ suf2) := by
        rw [hsplit]; simp
      have := ih (pre ++ [i]) row1 hsplit4 hrow1_len hrow1_01 hdone1 hzero1
      rw [List.foldl_cons]
      refine ⟨this.1, this.2.1, ?_, ?_⟩
      · intro j hj
        apply this.2.2.1
        rcases hj with hj | hj
        · exact Or.inl hj
        · right
          simp only [List.mem_append, List.mem_cons, List.mem_singleton] at hj ⊢
          tauto
      · intro j hjL hj0 hjmem
        apply this.2.2.2 j hjL hj0
        intro hmem
        apply hjmem
        simp only [List.mem_append, List.mem_cons, List.mem_singleton] at hmem ⊢
        tauto

/-- C2: for every sample size k at least 1, a fixed k x L matrix of
uniform draws, a proper parent tree and a conditional probability table,
generate_new_sample sets a candidate's bit 0 to 1 exactly when its draw
at column 0 is below probs[0, 0], and for every other position i sets
bit i to 1 exactly when the draw at column i is below probs[v, i] where
v is the candidate's sampled bit value at the parent position of i; the
output is thereby fully determined by the draws, the parent array and
the conditional probability table. -/
theorem generate_new_sample_bits (p : ProbOpt) (htree : IsTreeParent p.parent)
    (hlen : p.length = p.parent.length + 1) (k : Nat) (hk : 1 ≤ k)
    (rand : Nat → Nat → ℚ) :
    ∀ c, c < k →
      (((p.generate_new_sample k rand).getD c []).getD 0 0
          = (if rand c 0 < p.probs 0 0 then 1 else 0)) ∧
      (∀ i, 1 ≤ i → i < p.length →
        ((p.generate_new_sample k rand).getD c []).getD i 0
          = (if rand c i < p.probs
                (if ((p.generate_new_sample k rand).getD c []).getD
                    (parFun p.parent i) 0 = 1
                 then 1 else 0) i
             then 1 else 0)) := by
  intro c hc
  have hrow_eq : (p.generate_new_sample k rand).getD c []
      = ((find_sample_order p.parent).drop 1).foldl
          (fun r i => sampleRowStep p.probs p.parent rand i c r)
          ((List.range p.length).map (fun j =>
            if j = 0 ∧ rand c 0 < p.probs 0 0 then 1 else 0)) := by
    simp only [ProbOpt.generate_new_sample]
    rw [foldl_mapIdx_getD _ _ _ c (by simp [hc])]
    congr 1
    exact getD_map_range k _ c [] hc
  set initRow : List ℚ := (List.range p.length).map (fun j =>
      if j = 0 ∧ rand c 0 < p.probs 0 0 then 1 else 0) with hinitRow_def
  obtain ⟨hperm, hhead, hpb⟩ := find_sample_order_props p.parent htree
  have hnodup : (find_sample_order p.parent).Nodup :=
    hperm.nodup_iff.mpr (List.nodup_range _)
  have horder_split : find_sample_order p.parent
      = 0 :: ([] ++ (find_sample_order p.parent).drop 1) := by
    cases horder : find_sample_order p.parent with
    | nil => rw [horder] at hhead; simp at hhead
    | cons a t =>
        rw [horder] at hhead
        simp only [List.head?_cons, Option.some_inj] at hhead
        simp [hhead]
  have hL1 : 1 ≤ p.length := by omega
  have hlen2 : initRow.length = p.parent.length + 1 := by
    rw [hinitRow_def]
    simp [hlen]
  have h01 : ∀ j, initRow.getD j 0 = 0 ∨ initRow.getD j 0 = 1 := by
    intro j
    by_cases hj : j < p.length
    · rw [hinitRow_def, getD_map_range _ _ j 0 hj]
      by_cases hcond : j = 0 ∧ rand c 0 < p.probs 0 0
      · rw [if_pos hcond]; right; rfl
      · rw [if_neg hcond]; left; rfl
    · left
      rw [hinitRow_def, List.getD_eq_default]
      simp
      omega
  have hdone : ∀ j, j = 0 ∨ j ∈ ([] : List Nat) →
      initRow.getD j 0 = bitSpec p.probs p.parent rand c initRow j := by
    intro j hj
    rcases hj with hj | hj
    · subst hj
      rw [hinitRow_def, getD_map_range _ _ 0 0 hL1, bitSpec]
      simp
    · simp at hj
  have hzero : ∀ j, j < p.parent.length + 1 → j ≠ 0 → j ∉ ([] : List Nat) →
      initRow.getD j 0 = 0 := by
    intro j hjL hj0 _
    rw [hinitRow_def, getD_map_range _ _ j 0 (by omega)]
    rw [if_neg]
    rintro ⟨h, _⟩
    exact hj0 h
  have hmain := sample_fold_inv p.parent p.probs rand c htree
    ((find_sample_order p.parent).drop 1) [] initRow horder_split
    hlen2 h01 hdone hzero
  rw [← hrow_eq] at hmain
  constructor
  · have h0 := hmain.2.2.1 0 (Or.inl rfl)
    rw [h0, bitSpec]
    simp
  · intro i hi1 hiL
    have hmem : i ∈ (find_sample_order p.parent).drop 1 := by
      have hmem_order : i ∈ find_sample_order p.parent :=
        hperm.mem_iff.mpr (List.mem_range.mpr (by omega))
      rw [horder_split] at hmem_order
      rcases List.mem_cons.mp hmem_order with h | h
      · omega
      · simpa using h
    have hchar := hmain.2.2.1 i (Or.inr (by simpa using hmem))
    rw [hchar, bitSpec, if_neg (by omega)]

theorem generate_new_sample_bits_witness :
    (let p : ProbOpt := { ProbOpt.init 2 OneMax.evaluate with
        parent := [0], probs := fun _ _ => 1 / 2 }
     IsTreeParent p.parent ∧ p.length = p.parent.length + 1 ∧ (1 : Nat) ≤ 1 ∧
     ∀ c, c < 1 →
       (((p.generate_new_sample 1 (fun _ _ => 0)).getD c []).getD 0 0
           = (if (0 : ℚ) < p.probs 0 0 then 1 else 0)) ∧
       (∀ i, 1 ≤ i → i < p.length →
         ((p.generate_new_sample 1 (fun _ _ => 0)).getD c []).getD i 0
           = (if (0 : ℚ) < p.probs
                 (if ((p.generate_new_sample 1 (fun _ _ => 0)).getD c []).getD
                     (parFun p.parent i) 0 = 1
                  then 1 else 0) i
              then 1 else 0))) :=
  ⟨by unfold IsTreeParent; decide, by decide, by decide,
    generate_new_sample_bits _ (by unfold IsTreeParent; decide) (by decide) 1
      (by decide) (fun _ _ => 0)⟩

/-! ## Claim C1: the extracted parent array is a proper rooted tree -/

/-- Invariant of the depth-first traversal, relating the pending stack of
(node, discovered-from) pairs to the traversal state: visited nodes are
distinct valid positions discovered root-first, every recorded tree edge
goes from an earlier-visited node to a later-visited non-root node along
an edge of the graph, no node is recorded as a child twice, and every
visited non-root node has a recorded parent. -/
def DfsInv (L : Nat) (w : Nat → Nat → ℚ) (stack : List (Nat × Nat))
    (s : DfsState) : Prop :=
  s.visited.Nodup ∧
  (∀ v ∈ s.visited, v < L) ∧
  (s.visited ≠ [] → s.visited.head? = some 0) ∧
  (∀ pr ∈ stack, pr.1 < L ∧ (pr.2 ∈ s.visited ∨ pr.1 = 0) ∧
    (w pr.2 pr.1 ≠ 0 ∨ w pr.1 pr.2 ≠ 0 ∨ pr.1 = 0)) ∧
  (∀ pr ∈ s.edges, pr.2 ≠ 0 ∧ pr.2 ∈ s.visited ∧ pr.1 ∈ s.visited ∧
    s.visited.indexOf pr.1 < s.visited.indexOf pr.2 ∧
    (w pr.1 pr.2 ≠ 0 ∨ w pr.2 pr.1 ≠ 0)) ∧
  (s.edges.map Prod.snd).Nodup ∧
  (∀ v ∈ s.visited, v ≠ 0 → ∃ q, (q, v) ∈ s.edges)

/-- The stack-independent part of the traversal invariant. -/
def DfsStateInv (L : Nat) (w : Nat → Nat → ℚ) (s : DfsState) : Prop :=
  s.visited.Nodup ∧
  (∀ v ∈ s.visited, v < L) ∧
  (s.visited ≠ [] → s.visited.head? = some 0) ∧
  (∀ pr ∈ s.edges, pr.2 ≠ 0 ∧ pr.2 ∈ s.visited ∧ pr.1 ∈ s.visited ∧
    s.visited.indexOf pr.1 < s.visited.indexOf pr.2 ∧
    (w pr.1 pr.2 ≠ 0 ∨ w pr.2 pr.1 ≠ 0)) ∧
  (s.edges.map Prod.snd).Nodup ∧
  (∀ v ∈ s.visited, v ≠ 0 → ∃ q, (q, v) ∈ s.edges)

theorem dftAux_inv (L : Nat) (w : Nat → Nat → ℚ) :
    ∀ (fuel : Nat) (stack : List (Nat × Nat)) (s : DfsState),
    DfsInv L w stack s → DfsStateInv L w (dftAux L w fuel stack s) := by
  intro fuel
  induction fuel with
  | zero =>
      intro stack s h
      exact ⟨h.1, h.2.1, h.2.2.1, h.2.2.2.2.1, h.2.2.2.2.2.1, h.2.2.2.2.2.2⟩
  | succ fuel ih =>
      intro stack s h
      cases stack with
      | nil =>
          exact ⟨h.1, h.2.1, h.2.2.1, h.2.2.2.2.1, h.2.2.2.2.2.1, h.2.2.2.2.2.2⟩
      | cons vp rest =>
          obtain ⟨v, p⟩ := vp
          obtain ⟨hnodup, hvl, hhead, hstack, hedges, hchildren, hhasedge⟩ := h
          by_cases hv : v ∈ s.visited
          · simp only [dftAux, if_pos hv]
            exact ih rest s ⟨hnodup, hvl, hhead, fun pr hpr => hstack pr (by simp [hpr]),
              hedges, hchildren, hhasedge⟩
          · simp only [dftAux, if_neg hv]
            apply ih
            obtain ⟨hvL, hp_or, hw_or⟩ := hstack (v, p) (by simp)
            constructor
            · -- visited nodup
              rw [List.nodup_append]
              refine ⟨hnodup, by simp, ?_⟩
              intro a ha hb
              simp only [List.mem_singleton] at hb
              subst hb
              exact hv ha
            refine ⟨?_, ?_, ?_, ?_, ?_, ?_⟩
            · -- all visited < L
              intro x hx
              rcases List.mem_append.mp hx with hx | hx
              · exact hvl x hx
              · simp only [List.mem_singleton] at hx; subst hx; exact hvL
            · -- head is 0
              intro _
              cases hvis : s.visited with
              | nil =>
                  have hv0 : v = 0 := by
                    rcases hp_or with hmem | h0
                    · rw [hvis] at hmem; simp at hmem
                    · exact h0
                  simp [hv0]
              | cons a t =>
                  have ha := hhead (by rw [hvis]; simp)
                  rw [hvis] at ha
                  simp only [List.head?_cons, Option.some_inj] at ha
                  simp [ha]
            · -- stack invariant for the new stack
              intro pr hpr
              rcases List.mem_append.mp hpr with hpr | hpr
              · obtain ⟨u, hu, hueq⟩ := List.mem_map.mp hpr
                rw [adjList, List.mem_filter, List.mem_range] at hu
                obtain ⟨huL, hcond⟩ := hu
                subst hueq
                refine ⟨huL, Or.inl (by simp), ?_⟩
                simp only [decide_eq_true_eq] at hcond
                rcases hcond with hc | hc
                · exact Or.inl hc
                · exact Or.inr (Or.inl hc)
              · obtain ⟨h1, h2, h3⟩ := hstack pr (by simp [hpr])
                refine ⟨h1, ?_, h3⟩
                rcases h2 with h2 | h2
                · exact Or.inl (List.mem_append_left _ h2)
                · exact Or.inr h2
            · -- edge invariant
              intro pr hpr
              have hmem_new : pr ∈ s.edges ∨ (v ≠ 0 ∧ pr = (p, v)) := by
                by_cases hv0 : v = 0
                · rw [if_pos hv0] at hpr
                  exact Or.inl hpr
                · rw [if_neg hv0] at hpr
                  rcases List.mem_append.mp hpr with hpr | hpr
                  · exact Or.inl hpr
                  · simp only [List.mem_singleton] at hpr
                    exact Or.inr ⟨hv0, hpr⟩
              rcases hmem_new with hpr2 | ⟨hv0, hpr2⟩
              · obtain ⟨e1, e2, e3, e4, e5⟩ := hedges pr hpr2
                refine ⟨e1, List.mem_append_left _ e2, List.mem_append_left _ e3, ?_, e5⟩
                rw [List.indexOf_append_of_mem e3, List.indexOf_append_of_mem e2]
                exact e4
              · subst hpr2
                have hpmem : p ∈ s.visited := by
                  rcases hp_or with h2 | h2
                  · exact h2
                  · exact absurd h2 hv0
                refine ⟨hv0, by simp, List.mem_append_left _ hpmem, ?_, ?_⟩
                · rw [List.indexOf_append_of_mem hpmem,
                    List.indexOf_append_of_not_mem hv, List.indexOf_cons_self]
                  have := List.indexOf_lt_length.mpr hpmem
                  omega
                · rcases hw_or with hc | hc
                  · exact Or.inl hc
                  · rcases hc with hc | hc
                    · exact Or.inr hc
                    · exact absurd hc hv0
            · -- children stay distinct
              by_cases hv0 : v = 0
              · rw [if_pos hv0]; exact hchildren
              · rw [if_neg hv0, List.map_append]
                rw [List.nodup_append]
                refine ⟨hchildren, by simp, ?_⟩
                intro a ha hb
                simp only [List.map_cons, List.map_nil, List.mem_singleton] at hb
                subst hb
                obtain ⟨pr, hpr, hpra⟩ := List.mem_map.mp ha
                have := (hedges pr hpr).2.1
                rw [hpra] at this
                exact hv this
            · -- every visited non-root node has a parent edge
              intro x hx hx0
              rcases List.mem_append.mp hx with hx | hx
              · obtain ⟨q, hq⟩ := hhasedge x hx hx0
                by_cases hv0 : v = 0
                · rw [if_pos hv0]; exact ⟨q, hq⟩
                · rw [if_neg hv0]; exact ⟨q, List.mem_append_left _ hq⟩
              · simp only [List.mem_singleton] at hx
                subst hx
                rw [if_neg hx0]
                exact ⟨p, by simp⟩

theorem dftAux_visited_prefix (L : Nat) (w : Nat → Nat → ℚ) :
    ∀ (fuel : Nat) (stack : List (Nat × Nat)) (s : DfsState),
    ∃ t, (dftAux L w fuel stack s).visited = s.visited ++ t := by
  intro fuel
  induction fuel with
  | zero => exact fun stack s => ⟨[], by simp [dftAux]⟩
  | succ fuel ih =>
      intro stack s
      cases stack with
      | nil => exact ⟨[], by simp [dftAux]⟩
      | cons vp rest =>
          obtain ⟨v, p⟩ := vp
          by_cases hv : v ∈ s.visited
          · simp only [dftAux, if_pos hv]
            exact ih rest s
          · simp only [dftAux, if_neg hv]
            obtain ⟨t, ht⟩ := ih ((adjList L w v).map (fun u => (u, v)) ++ rest)
              { visited := s.visited ++ [v]
                edges := if v = 0 then s.edges else s.edges ++ [(p, v)] }
            exact ⟨[v] ++ t, by rw [ht]; simp⟩

theorem depthFirstTreeState_inv (L : Nat) (w : Nat → Nat → ℚ) (hL : 1 ≤ L) :
    DfsStateInv L w (depthFirstTreeState L w) := by
  apply dftAux_inv
  refine ⟨by simp, by simp, by simp, ?_, by simp, by simp, by simp⟩
  intro pr hpr
  simp only [List.mem_singleton] at hpr
  subst hpr
  exact ⟨by simpa using hL, Or.inr rfl, Or.inr (Or.inr rfl)⟩

theorem zero_mem_depthFirstTreeState (L : Nat) (w : Nat → Nat → ℚ) :
    0 ∈ (depthFirstTreeState L w).visited := by
  rw [depthFirstTreeState]
  have hstep : dftAux L w (L * L + L + 1) [(0, 0)] ⟨[], []⟩
      = dftAux L w (L * L + L) ((adjList L w 0).map (fun u => (u, 0)) ++ [])
          { visited := [] ++ [0], edges := if (0 : Nat) = 0 then [] else [] ++ [(0, 0)] } := by
    simp only [dftAux]
    rw [if_neg (by simp)]
  rw [hstep]
  obtain ⟨t, ht⟩ := dftAux_visited_prefix L w (L * L + L)
    ((adjList L w 0).map (fun u => (u, 0)) ++ [])
    { visited := [] ++ [0], edges := if (0 : Nat) = 0 then [] else [] ++ [(0, 0)] }
  rw [ht]
  simp

theorem np_argmin_list_unique_neg (l : List ℚ) (t : Nat) (ht : t < l.length)
    (hneg : l.getD t 0 < 0) (hrest : ∀ u, u < l.length → u ≠ t → l.getD u 0 = 0) :
    np_argmin_list l = t := by
  cases l with
  | nil => simp at ht
  | cons x xs =>
      cases t with
      | zero =>
          have hx : x < 0 := by simpa using hneg
          show argminAux xs x 0 1 = 0
          apply argminAux_const
          intro k hk
          have := hrest (k + 1) (by simpa using hk) (by omega)
          simp only [List.getD_cons_succ] at this
          rw [this]
          exact le_of_lt hx
      | succ t =>
          have hx : x = 0 := by simpa using hrest 0 (by simp) (by omega)
          show argminAux xs x 0 1 = t + 1
          have := argminAux_unique_neg xs x 0 1 t (by simpa using ht)
            (by rw [hx]; simpa using hneg)
            (fun k hk hkt => by
              have := hrest (k + 1) (by simpa using hk) (by omega)
              simp only [List.getD_cons_succ] at this
              rw [this, hx])
          rw [this]
          omega

theorem np_argmin_list_all_zero (l : List ℚ)
    (h : ∀ u, u < l.length → l.getD u 0 = 0) : np_argmin_list l = 0 := by
  cases l with
  | nil => rfl
  | cons x xs =>
      show argminAux xs x 0 1 = 0
      apply argminAux_const
      intro k hk
      have h0 : x = 0 := by simpa using h 0 (by simp)
      have hk2 := h (k + 1) (by simpa using hk)
      simp only [List.getD_cons_succ] at hk2
      rw [hk2, h0]

theorem edge_child_unique (L : Nat) (w : Nat → Nat → ℚ) (s : DfsState)
    (hinv : DfsStateInv L w s) (u q j : Nat)
    (hu : (u, j) ∈ s.edges) (hq : (q, j) ∈ s.edges) : u = q := by
  by_contra hne
  have hpair : ((u, j) : Nat × Nat) ≠ (q, j) := by
    intro h
    exact hne (congrArg Prod.fst h)
  have hpw := hinv.2.2.2.2.1
  rw [List.Nodup, List.pairwise_map] at hpw
  have hforall := List.Pairwise.forall (fun a b (h : ¬ Prod.snd a = Prod.snd b) =>
    fun h2 => h h2.symm) hpw hu hq hpair
  exact hforall rfl

theorem argmin_col_edge (L : Nat) (w : Nat → Nat → ℚ) (hw : ∀ u v, w u v ≤ 0)
    (hinv : DfsStateInv L w (depthFirstTreeState L w)) (j q : Nat) (hj : j < L)
    (hq : (q, j) ∈ (depthFirstTreeState L w).edges) :
    np_argmin_col L (dftMat L w) j = q := by
  have hqL : q < L := hinv.2.1 q (hinv.2.2.2.1 _ hq).2.2.1
  rw [np_argmin_col]
  apply np_argmin_list_unique_neg _ q (by simpa using hqL)
  · rw [getD_map_range L _ q 0 hqL, dftMat, if_pos hq]
    obtain ⟨_, _, _, _, hwor⟩ := hinv.2.2.2.1 _ hq
    by_cases hwqj : w q j ≠ 0
    · rw [if_pos hwqj]
      exact lt_of_le_of_ne (hw q j) hwqj
    · rw [if_neg hwqj]
      push_neg at hwqj
      rcases hwor with h | h
      · exact absurd h (by simp [hwqj])
      · exact lt_of_le_of_ne (hw j q) h
  · intro u huL hune
    rw [List.length_map, List.length_range] at huL
    rw [getD_map_range L _ u 0 huL, dftMat, if_neg]
    intro hmem
    exact hune (edge_child_unique L w _ hinv u q j hmem hq)

theorem buildParent_getD (L : Nat) (w : Nat → Nat → ℚ) (i : Nat)
    (h1 : 1 ≤ i) (hi : i < L) :
    parFun (buildParent L w) i = np_argmin_col L (dftMat L w) i := by
  rw [parFun, if_neg (by omega), buildParent,
    getD_map_range (L - 1) _ (i - 1) 0 (by omega)]
  congr 1
  omega

theorem visited_reach (L : Nat) (w : Nat → Nat → ℚ) (hL : 2 ≤ L)
    (hw : ∀ u v, w u v ≤ 0) :
    ∀ (n : Nat) (i : Nat), i ∈ (depthFirstTreeState L w).visited →
      (depthFirstTreeState L w).visited.indexOf i ≤ n →
      ∃ k, k ≤ n ∧ (parFun (buildParent L w))^[k] i = 0 := by
  have hinv := depthFirstTreeState_inv L w (by omega)
  intro n
  induction n with
  | zero =>
      intro i hi hidx
      have hne : (depthFirstTreeState L w).visited ≠ [] := List.ne_nil_of_mem hi
      have hhead := hinv.2.2.1 hne
      by_cases hi0 : i = 0
      · exact ⟨0, le_refl 0, by simp [hi0]⟩
      · exfalso
        cases hvis : (depthFirstTreeState L w).visited with
        | nil => rw [hvis] at hi; simp at hi
        | cons a t =>
            rw [hvis] at hhead hidx
            simp only [List.head?_cons, Option.some_inj] at hhead
            rw [List.indexOf_cons_ne] at hidx
            · omega
            · rw [hhead]
              exact fun h => hi0 h.symm
  | succ n ih =>
      intro i hi hidx
      by_cases hi0 : i = 0
      · exact ⟨0, by omega, by simp [hi0]⟩
      · obtain ⟨q, hq⟩ := hinv.2.2.2.2.2 i hi hi0
        obtain ⟨_, _, hqvis, hqidx, _⟩ := hinv.2.2.2.1 _ hq
        have hqidx2 : (depthFirstTreeState L w).visited.indexOf q
            < (depthFirstTreeState L w).visited.indexOf i := hqidx
        have hiL : i < L := hinv.2.1 i hi
        have hpar : parFun (buildParent L w) i = q := by
          rw [buildParent_getD L w i (by omega) hiL]
          exact argmin_col_edge L w hw hinv i q hiL hq
        obtain ⟨k, hk, hk0⟩ := ih q hqvis (by omega)
        refine ⟨k + 1, by omega, ?_⟩
        rw [Function.iterate_succ_apply, hpar]
        exact hk0

theorem buildParent_tree (L : Nat) (w : Nat → Nat → ℚ) (hL : 2 ≤ L)
    (hw : ∀ u v, w u v ≤ 0) :
    (buildParent L w).length = L - 1 ∧
    (∀ x ∈ buildParent L w, x < L) ∧
    (∀ i, i < L → ∃ k, k < L ∧ (parFun (buildParent L w))^[k] i = 0) := by
  have hinv := depthFirstTreeState_inv L w (by omega)
  refine ⟨by simp [buildParent], ?_, ?_⟩
  · intro x hx
    rw [buildParent] at hx
    obtain ⟨t, ht, hxt⟩ := List.mem_map.mp hx
    rw [List.mem_range] at ht
    by_cases hedge : ∃ q, (q, t + 1) ∈ (depthFirstTreeState L w).edges
    · obtain ⟨q, hq⟩ := hedge
      have hqL : q < L := hinv.2.1 q (hinv.2.2.2.1 _ hq).2.2.1
      rw [← hxt, argmin_col_edge L w hw hinv (t + 1) q (by omega) hq]
      exact hqL
    · push_neg at hedge
      rw [← hxt, np_argmin_col, np_argmin_list_all_zero]
      · omega
      · intro u huL
        rw [List.length_map, List.length_range] at huL
        rw [getD_map_range L _ u 0 huL, dftMat, if_neg (hedge u)]
  · intro i hiL
    by_cases hvis : i ∈ (depthFirstTreeState L w).visited
    · have hlen : (depthFirstTreeState L w).visited.length ≤ L := by
        have hsub : (depthFirstTreeState L w).visited ⊆ List.range L := by
          intro x hx
          rw [List.mem_range]
          exact hinv.2.1 x hx
        have := (List.subperm_of_subset hinv.1 hsub).length_le
        simpa using this
      have hidx := List.indexOf_lt_length.mpr hvis
      obtain ⟨k, hk, hk0⟩ := visited_reach L w hL hw
        ((depthFirstTreeState L w).visited.indexOf i) i hvis (le_refl _)
      exact ⟨k, by omega, hk0⟩
    · by_cases hi0 : i = 0
      · exact ⟨0, by omega, by simp [hi0]⟩
      · refine ⟨1, by omega, ?_⟩
        have hnoedge : ∀ q, (q, i) ∉ (depthFirstTreeState L w).edges := by
          intro q hq
          exact hvis (hinv.2.2.2.1 _ hq).2.1
        rw [Function.iterate_one, buildParent_getD L w i (by omega) hiL,
          np_argmin_col, np_argmin_list_all_zero]
        intro u huL
        rw [List.length_map, List.length_range] at huL
        rw [getD_map_range L _ u 0 huL, dftMat, if_neg (hnoedge u)]

/-- C1: after update_probs runs on a nonempty elite sample over a
problem of length L at least 2 (given the interface guarantees of the
external services: mutual information scores are nonnegative, and the
minimum spanning tree of a nonpositive weight matrix again has
nonpositive entries, its edges being a subset of the input edges), the
stored parent array describes a proper rooted tree over the L bit
positions: it holds exactly one parent value for each position 1 .. L-1,
each lying in 0 .. L-1, position 0 has no entry, and following parent
links from any position reaches the root 0 without cycles, in fewer
than L steps. -/
theorem update_probs_parent_tree (p : ProbOpt) (ext : Externals)
    (hmi : ∀ a b, 0 ≤ ext.mi_score a b)
    (hmst : ∀ (n : Nat) (m : Nat → Nat → ℚ),
      (∀ u v, m u v ≤ 0) → ∀ u v, ext.mst n m u v ≤ 0)
    (hkeep : p.keep_sample ≠ []) (hL : 2 ≤ p.length) :
    ((p.update_probs ext).parent.length = p.length - 1) ∧
    (∀ x ∈ (p.update_probs ext).parent, x < p.length) ∧
    (∀ i, i < p.length → ∃ k, k < p.length ∧
      (parFun ((p.update_probs ext).parent))^[k] i = 0) := by
  have hmimat : ∀ u v, mutualInfoMatrix ext p.length p.keep_sample u v ≤ 0 := by
    intro u v
    rw [mutualInfoMatrix]
    by_cases hc : u < v ∧ v < p.length
    · rw [if_pos hc]
      have := hmi (column p.keep_sample u) (column p.keep_sample v)
      linarith
    · rw [if_neg hc]
  exact buildParent_tree p.length _ hL (hmst p.length _ hmimat)

theorem update_probs_parent_tree_witness :
    (let p : ProbOpt :=
       { ProbOpt.init 2 OneMax.evaluate with keep_sample := [[0, 1], [1, 0]] }
     let ext : Externals := ⟨fun _ _ => 0, fun _ m => m⟩
     (∀ a b, (0 : ℚ) ≤ ext.mi_score a b) ∧
     (∀ (n : Nat) (m : Nat → Nat → ℚ),
       (∀ u v, m u v ≤ 0) → ∀ u v, ext.mst n m u v ≤ 0) ∧
     p.keep_sample ≠ [] ∧ 2 ≤ p.length ∧
     (((p.update_probs ext).parent.length = p.length - 1) ∧
      (∀ x ∈ (p.update_probs ext).parent, x < p.length) ∧
      (∀ i, i < p.length → ∃ k, k < p.length ∧
        (parFun ((p.update_probs ext).parent))^[k] i = 0))) :=
  ⟨fun _ _ => le_refl 0, fun _ _ h => h, by decide, by decide,
    update_probs_parent_tree _ _ (fun _ _ => le_refl 0) (fun _ _ h => h)
      (by decide) (by decide)⟩
